import Mathlib

/-!
Verification development for the email-PDF processing pipeline
(`src/email-poller.js`, `src/retry_claude_json_scheduled.js`).

The JavaScript is embedded shallowly:
* JSON values (`Jval`) model what `JSON.parse` returns; `strVal` models
  `JSON.stringify` (numbers restricted to integers, which is all the
  pipeline's own logic ever inspects), and `parseVal`/`jsonParseChars`
  model `JSON.parse` including its rejection of trailing non-whitespace.
* JavaScript strings are modelled as `List Char`.
* Exceptions are modelled with `Option`/explicit error values; `try/catch`
  blocks become pattern matches on those options, placed exactly where the
  source has them.
-/

namespace EPP

/-- The backtick character (code 96). -/
def btick : Char := Char.ofNat 96

/-- Opening curly brace (code 123). -/
def lbrace : Char := Char.ofNat 123

/-- Closing curly brace (code 125). -/
def rbrace : Char := Char.ofNat 125

/-- JSON whitespace / JS `\s` for the characters this code ever produces. -/
def isWs (c : Char) : Bool := c = ' ' || c = '\n' || c = '\t' || c = '\r'

/-- ASCII digit test (JS regex `\d`). -/
def isDig (c : Char) : Bool := 48 ≤ c.toNat && c.toNat ≤ 57

mutual
/-- JSON values, as returned by `JSON.parse`.  Numbers are modelled as
integers; the pipeline's own logic never computes with fractional values. -/
inductive Jval where
  | jnull : Jval
  | jbool : Bool → Jval
  | jnum : Int → Jval
  | jstr : List Char → Jval
  | jarr : Jarr → Jval
  | jobj : Jobj → Jval
deriving DecidableEq

/-- A JSON array (explicit list to keep the induction mutual and primitive). -/
inductive Jarr where
  | anil : Jarr
  | acons : Jval → Jarr → Jarr
deriving DecidableEq

/-- A JSON object: an ordered list of key/value members. -/
inductive Jobj where
  | onil : Jobj
  | ocons : List Char → Jval → Jobj → Jobj
deriving DecidableEq
end

/-- Escape one character the way `JSON.stringify` does for the characters
this development uses (quote, backslash, and common control characters). -/
def escChar (c : Char) : List Char :=
  if c = '"' then ['\\', '"']
  else if c = '\\' then ['\\', '\\']
  else if c = '\n' then ['\\', 'n']
  else if c = '\t' then ['\\', 't']
  else if c = '\r' then ['\\', 'r']
  else [c]

/-- Escape a whole string body (between the quotes). -/
def escStr : List Char → List Char
  | [] => []
  | c :: cs => escChar c ++ escStr cs

/-- The decimal digit character for `d ∈ [0,9]`. -/
def digitChar : Nat → Char
  | 0 => '0' | 1 => '1' | 2 => '2' | 3 => '3' | 4 => '4'
  | 5 => '5' | 6 => '6' | 7 => '7' | 8 => '8' | _ => '9'

/-- Numeric value of a digit character. -/
def digVal (c : Char) : Nat := c.toNat - 48

/-- Decimal digits of `n`, most significant first (empty for `0`);
structural fuel makes the definition reduce by `rfl`/`decide`. -/
def natCharsAux : Nat → Nat → List Char
  | 0, _ => []
  | _ + 1, 0 => []
  | fuel + 1, n + 1 => natCharsAux fuel ((n + 1) / 10) ++ [digitChar ((n + 1) % 10)]

/-- Decimal rendering of a natural number. -/
def natChars (n : Nat) : List Char := if n = 0 then ['0'] else natCharsAux n n

/-- Decimal rendering of an integer (what `JSON.stringify`/template
interpolation produce for integral JS numbers). -/
def intChars (i : Int) : List Char :=
  if i < 0 then '-' :: natChars i.natAbs else natChars i.natAbs

mutual
/-- `JSON.stringify` on a value (compact form, no added whitespace). -/
def strVal : Jval → List Char
  | .jnull => ['n', 'u', 'l', 'l']
  | .jbool true => ['t', 'r', 'u', 'e']
  | .jbool false => ['f', 'a', 'l', 's', 'e']
  | .jnum i => intChars i
  | .jstr s => '"' :: (escStr s ++ ['"'])
  | .jarr a => '[' :: (strArr a ++ [']'])
  | .jobj o => lbrace :: (strObj o ++ [rbrace])
termination_by structural v => v

/-- Serialized array elements, comma separated. -/
def strArr : Jarr → List Char
  | .anil => []
  | .acons v .anil => strVal v
  | .acons v (.acons w rest) => strVal v ++ ',' :: strArr (.acons w rest)
termination_by structural a => a

/-- Serialized object members, comma separated. -/
def strObj : Jobj → List Char
  | .onil => []
  | .ocons k v .onil => '"' :: (escStr k ++ '"' :: ':' :: strVal v)
  | .ocons k v (.ocons k2 w rest) =>
    ('"' :: (escStr k ++ '"' :: ':' :: strVal v)) ++ ',' :: strObj (.ocons k2 w rest)
termination_by structural o => o
end

/-- One serialized `"key":value` member (abbreviation for lemmas). -/
def strMember (k : List Char) (v : Jval) : List Char :=
  '"' :: (escStr k ++ '"' :: ':' :: strVal v)

/-- Skip leading JSON whitespace. -/
def skipWs : List Char → List Char
  | [] => []
  | c :: cs => if isWs c then skipWs cs else c :: cs

/-- Unescape one character after a backslash in a JSON string literal. -/
def unesc : Char → Option Char
  | 'n' => some '\n'
  | 'r' => some '\r'
  | 't' => some '\t'
  | '"' => some '"'
  | '/' => some '/'
  | '\\' => some '\\'
  | _ => none

/-- Parse the body of a JSON string literal (the opening quote already
consumed); returns the decoded string and the rest of the input. -/
def parseStrBody : List Char → Option (List Char × List Char)
  | [] => none
  | c :: r =>
    if c = '"' then some ([], r)
    else if c = '\\' then
      match r with
      | [] => none
      | e :: r2 =>
        match unesc e, parseStrBody r2 with
        | some u, some (s, r3) => some (u :: s, r3)
        | _, _ => none
    else
      match parseStrBody r with
      | some (s, r3) => some (c :: s, r3)
      | none => none

/-- Take the maximal run of leading decimal digits. -/
def takeDigits : List Char → List Char × List Char
  | [] => ([], [])
  | c :: cs =>
    if isDig c then
      match takeDigits cs with
      | (d, r) => (c :: d, r)
    else ([], c :: cs)

/-- Value of a digit string (most significant first). -/
def digitsToNat (ds : List Char) : Nat := ds.foldl (fun a c => a * 10 + digVal c) 0

/-- `l2` follows after consuming the literal `l1`, else `none`. -/
def stripLit : List Char → List Char → Option (List Char)
  | [], r => some r
  | _ :: _, [] => none
  | c :: cs, d :: r => if c = d then stripLit cs r else none

mutual
/-- Fuel-indexed JSON value parser (models `JSON.parse`'s grammar on the
values `strVal` produces; lenient about escapes/number forms it never
meets).  Returns the value and the unconsumed input. -/
def parseVal : Nat → List Char → Option (Jval × List Char)
  | 0, _ => none
  | fuel + 1, cs =>
    match skipWs cs with
    | [] => none
    | c :: r =>
      if c = 'n' then (stripLit ['u', 'l', 'l'] r).map (fun r2 => (.jnull, r2))
      else if c = 't' then (stripLit ['r', 'u', 'e'] r).map (fun r2 => (.jbool true, r2))
      else if c = 'f' then (stripLit ['a', 'l', 's', 'e'] r).map (fun r2 => (.jbool false, r2))
      else if c = '"' then (parseStrBody r).map (fun p => (.jstr p.1, p.2))
      else if c = '[' then
        match skipWs r with
        | [] => none
        | d :: r2 =>
          if d = ']' then some (.jarr .anil, r2)
          else (parseElems fuel r).map (fun p => (.jarr p.1, p.2))
      else if c = lbrace then
        match skipWs r with
        | [] => none
        | d :: r2 =>
          if d = rbrace then some (.jobj .onil, r2)
          else (parseMembers fuel r).map (fun p => (.jobj p.1, p.2))
      else if c = '-' then
        match takeDigits r with
        | ([], _) => none
        | (d :: ds, r2) => some (.jnum (-(digitsToNat (d :: ds) : Int)), r2)
      else if isDig c then
        match takeDigits (c :: r) with
        | (ds, r2) => some (.jnum (digitsToNat ds : Int), r2)
      else none
termination_by structural fuel _ => fuel

/-- Parse one-or-more comma separated array elements up to `]`. -/
def parseElems : Nat → List Char → Option (Jarr × List Char)
  | 0, _ => none
  | fuel + 1, cs =>
    match parseVal fuel cs with
    | none => none
    | some (v, r1) =>
      match skipWs r1 with
      | [] => none
      | d :: r2 =>
        if d = ',' then
          match parseElems fuel r2 with
          | some (tail, r3) => some (.acons v tail, r3)
          | none => none
        else if d = ']' then some (.acons v .anil, r2)
        else none
termination_by structural fuel _ => fuel

/-- Parse one-or-more comma separated object members up to the closing brace. -/
def parseMembers : Nat → List Char → Option (Jobj × List Char)
  | 0, _ => none
  | fuel + 1, cs =>
    match skipWs cs with
    | [] => none
    | c :: r =>
      if c = '"' then
        match parseStrBody r with
        | none => none
        | some (k, r1) =>
          match skipWs r1 with
          | [] => none
          | e :: r2 =>
            if e = ':' then
              match parseVal fuel r2 with
              | none => none
              | some (v, r3) =>
                match skipWs r3 with
                | [] => none
                | g :: r4 =>
                  if g = ',' then
                    match parseMembers fuel r4 with
                    | some (tail, r5) => some (.ocons k v tail, r5)
                    | none => none
                  else if g = rbrace then some (.ocons k v .onil, r4)
                  else none
            else none
      else none
termination_by structural fuel _ => fuel
end

/-- `JSON.parse` on a whole string: parse one value, then require only
whitespace to remain (JS throws on trailing non-whitespace; `none` models
the throw). -/
def jsonParseChars (cs : List Char) : Option Jval :=
  match parseVal (cs.length + 1) cs with
  | some (v, rest) => if skipWs rest = [] then some v else none
  | none => none

mutual
/-- Node-count measure used to discharge the parser's fuel. -/
def sizeV : Jval → Nat
  | .jnull => 1
  | .jbool _ => 1
  | .jnum _ => 1
  | .jstr _ => 1
  | .jarr a => sizeA a + 1
  | .jobj o => sizeO o + 1
termination_by structural v => v

/-- Measure for array tails. -/
def sizeA : Jarr → Nat
  | .anil => 0
  | .acons v t => sizeV v + sizeA t + 1
termination_by structural a => a

/-- Measure for object tails. -/
def sizeO : Jobj → Nat
  | .onil => 0
  | .ocons _ v t => sizeV v + sizeO t + 1
termination_by structural o => o
end

/-- The head of the remaining input is not a digit (so a parsed number
cannot spill into it); vacuously true for empty input. -/
def ndHead : List Char → Bool
  | [] => true
  | c :: _ => !isDig c

theorem skipWs_cons_not {c : Char} {cs : List Char} (h : isWs c = false) :
    skipWs (c :: cs) = c :: cs := by
  simp [skipWs, h]

theorem sizeV_pos (v : Jval) : 1 ≤ sizeV v := by
  cases v <;> simp [sizeV]

theorem digitChar_isDig {d : Nat} : isDig (digitChar d) = true := by
  unfold digitChar; split <;> decide

theorem digitChar_not_ws {d : Nat} : isWs (digitChar d) = false := by
  unfold digitChar; split <;> decide

theorem digVal_digitChar {d : Nat} (h : d < 10) : digVal (digitChar d) = d := by
  interval_cases d <;> decide

theorem natCharsAux_digits :
    ∀ fuel n c, c ∈ natCharsAux fuel n → isDig c = true := by
  intro fuel
  induction fuel with
  | zero => intro n c h; simp [natCharsAux] at h
  | succ f ih =>
    intro n c h
    match n with
    | 0 => simp [natCharsAux] at h
    | m + 1 =>
      rw [natCharsAux] at h
      rcases List.mem_append.1 h with h1 | h1
      · exact ih _ _ h1
      · simp at h1; subst h1; exact digitChar_isDig

theorem foldl_digits_aux :
    ∀ fuel n a, n ≤ fuel →
      List.foldl (fun acc c => acc * 10 + digVal c) a (natCharsAux fuel n)
        = a * 10 ^ (natCharsAux fuel n).length + n := by
  intro fuel
  induction fuel with
  | zero =>
    intro n a h
    interval_cases n
    simp [natCharsAux]
  | succ f ih =>
    intro n a h
    match n with
    | 0 => simp [natCharsAux]
    | m + 1 =>
      rw [natCharsAux, List.foldl_append]
      have hd : (m + 1) / 10 ≤ f := by
        have := Nat.div_lt_self (Nat.succ_pos m) (by norm_num : 1 < 10)
        omega
      rw [ih _ a hd]
      have hm : digVal (digitChar ((m + 1) % 10)) = (m + 1) % 10 :=
        digVal_digitChar (Nat.mod_lt _ (by norm_num))
      simp only [List.foldl_cons, List.foldl_nil, List.length_append,
        List.length_cons, List.length_nil, hm]
      have hdm := Nat.div_add_mod (m + 1) 10
      have hpow : 10 ^ ((natCharsAux f ((m + 1) / 10)).length + (0 + 1))
          = 10 ^ (natCharsAux f ((m + 1) / 10)).length * 10 := by
        rw [Nat.zero_add, pow_succ]
      rw [hpow]
      generalize (10 : Nat) ^ (natCharsAux f ((m + 1) / 10)).length = P
      ring_nf
      omega

theorem digitsToNat_natChars (n : Nat) : digitsToNat (natChars n) = n := by
  unfold natChars digitsToNat
  by_cases h : n = 0
  · subst h; decide
  · rw [if_neg h]
    have := foldl_digits_aux n n 0 le_rfl
    simpa using this

theorem natChars_ne_nil (n : Nat) : natChars n ≠ [] := by
  unfold natChars
  by_cases h : n = 0
  · simp [h]
  · rw [if_neg h]
    match n, h with
    | m + 1, _ => rw [natCharsAux]; simp

theorem natChars_digits {n : Nat} {c : Char} (h : c ∈ natChars n) : isDig c = true := by
  unfold natChars at h
  by_cases h0 : n = 0
  · simp [h0] at h; subst h; decide
  · rw [if_neg h0] at h; exact natCharsAux_digits _ _ _ h

theorem parseStrBody_quote (r : List Char) : parseStrBody ('"' :: r) = some ([], r) := by
  rw [parseStrBody.eq_def]
  dsimp only
  rw [if_pos rfl]

theorem parseStrBody_esc (e : Char) (r : List Char) :
    parseStrBody ('\\' :: e :: r) =
      match unesc e, parseStrBody r with
      | some u, some (s, r3) => some (u :: s, r3)
      | _, _ => none := by
  rw [parseStrBody.eq_def]
  dsimp only
  rw [if_neg (by decide : ¬('\\' : Char) = '"'), if_pos rfl]

theorem parseStrBody_gen {c : Char} (r : List Char) (h1 : c ≠ '"') (h2 : c ≠ '\\') :
    parseStrBody (c :: r) =
      match parseStrBody r with
      | some (s, r3) => some (c :: s, r3)
      | none => none := by
  rw [parseStrBody.eq_def]
  dsimp only
  rw [if_neg h1, if_neg h2]

theorem parseStrBody_escStr : ∀ (s rest : List Char),
    parseStrBody (escStr s ++ '"' :: rest) = some (s, rest) := by
  intro s
  induction s with
  | nil => intro rest; simp [escStr, parseStrBody_quote]
  | cons c cs ih =>
    intro rest
    by_cases h1 : c = '"'
    · subst h1; simp [escStr, escChar, parseStrBody_esc, unesc, ih]
    · by_cases h2 : c = '\\'
      · subst h2; simp [escStr, escChar, parseStrBody_esc, unesc, ih]
      · by_cases h3 : c = '\n'
        · subst h3; simp [escStr, escChar, parseStrBody_esc, unesc, ih]
        · by_cases h4 : c = '\t'
          · subst h4; simp [escStr, escChar, parseStrBody_esc, unesc, ih]
          · by_cases h5 : c = '\r'
            · subst h5; simp [escStr, escChar, parseStrBody_esc, unesc, ih]
            · have hg := @parseStrBody_gen c (escStr cs ++ '"' :: rest) h1 h2
              simp [escStr, escChar, h1, h2, h3, h4, h5, hg, ih]

theorem isDig_ne {c d : Char} (h : isDig c = true) (hd : isDig d = false) : c ≠ d := by
  intro he; subst he; rw [h] at hd; cases hd

theorem isDig_not_ws {c : Char} (h : isDig c = true) : isWs c = false := by
  cases hw : isWs c
  · rfl
  · exfalso
    have : ((c = ' ' ∨ c = '\n') ∨ c = '\t') ∨ c = '\r' := by
      simpa [isWs, Bool.or_eq_true, decide_eq_true_iff] using hw
    rcases this with ((h1 | h1) | h1) | h1 <;> subst h1 <;> exact absurd h (by decide)

theorem takeDigits_app (ds rest : List Char) (hd : ∀ c ∈ ds, isDig c = true)
    (hr : ndHead rest = true) : takeDigits (ds ++ rest) = (ds, rest) := by
  induction ds with
  | nil =>
    match rest, hr with
    | [], _ => rfl
    | c :: t, hr =>
      have : isDig c = false := by simpa [ndHead] using hr
      simp [takeDigits, this]
  | cons c t ih =>
    have hc : isDig c = true := hd c (List.mem_cons_self c t)
    have ht : ∀ x ∈ t, isDig x = true := fun x hx => hd x (List.mem_cons_of_mem c hx)
    simp [takeDigits, hc, ih ht]

theorem parseVal_cons_null (fuel : Nat) (r : List Char) :
    parseVal (fuel + 1) ('n' :: r) =
      (stripLit ['u', 'l', 'l'] r).map (fun r2 => (.jnull, r2)) := by
  rw [parseVal.eq_def]
  dsimp only
  rw [skipWs_cons_not (by decide)]
  dsimp only
  rw [if_pos rfl]

theorem parseVal_cons_true (fuel : Nat) (r : List Char) :
    parseVal (fuel + 1) ('t' :: r) =
      (stripLit ['r', 'u', 'e'] r).map (fun r2 => (.jbool true, r2)) := by
  rw [parseVal.eq_def]
  dsimp only
  rw [skipWs_cons_not (by decide)]
  dsimp only
  rw [if_neg (by decide), if_pos rfl]

theorem parseVal_cons_false (fuel : Nat) (r : List Char) :
    parseVal (fuel + 1) ('f' :: r) =
      (stripLit ['a', 'l', 's', 'e'] r).map (fun r2 => (.jbool false, r2)) := by
  rw [parseVal.eq_def]
  dsimp only
  rw [skipWs_cons_not (by decide)]
  dsimp only
  rw [if_neg (by decide), if_neg (by decide), if_pos rfl]

theorem parseVal_cons_quote (fuel : Nat) (r : List Char) :
    parseVal (fuel + 1) ('"' :: r) =
      (parseStrBody r).map (fun p => (.jstr p.1, p.2)) := by
  rw [parseVal.eq_def]
  dsimp only
  rw [skipWs_cons_not (by decide)]
  dsimp only
  rw [if_neg (by decide), if_neg (by decide), if_neg (by decide), if_pos rfl]

theorem parseVal_cons_arr (fuel : Nat) (r : List Char) :
    parseVal (fuel + 1) ('[' :: r) =
      (match skipWs r with
      | [] => none
      | d :: r2 =>
        if d = ']' then some (.jarr .anil, r2)
        else (parseElems fuel r).map (fun p => (.jarr p.1, p.2))) := by
  rw [parseVal.eq_def]
  dsimp only
  rw [skipWs_cons_not (by decide)]
  dsimp only
  rw [if_neg (by decide), if_neg (by decide), if_neg (by decide), if_neg (by decide),
    if_pos rfl]

theorem parseVal_cons_obj (fuel : Nat) (r : List Char) :
    parseVal (fuel + 1) (lbrace :: r) =
      (match skipWs r with
      | [] => none
      | d :: r2 =>
        if d = rbrace then some (.jobj .onil, r2)
        else (parseMembers fuel r).map (fun p => (.jobj p.1, p.2))) := by
  rw [parseVal.eq_def]
  dsimp only
  rw [skipWs_cons_not (by decide)]
  dsimp only
  rw [if_neg (by decide), if_neg (by decide), if_neg (by decide), if_neg (by decide),
    if_neg (by decide), if_pos rfl]

theorem parseVal_cons_neg (fuel : Nat) (r : List Char) :
    parseVal (fuel + 1) ('-' :: r) =
      (match takeDigits r with
      | ([], _) => none
      | (d :: ds, r2) => some (.jnum (-(digitsToNat (d :: ds) : Int)), r2)) := by
  rw [parseVal.eq_def]
  dsimp only
  rw [skipWs_cons_not (by decide)]
  dsimp only
  rw [if_neg (by decide), if_neg (by decide), if_neg (by decide), if_neg (by decide),
    if_neg (by decide), if_neg (by decide), if_pos rfl]

theorem parseVal_cons_digit (fuel : Nat) {c : Char} (r : List Char) (hc : isDig c = true) :
    parseVal (fuel + 1) (c :: r) =
      (match takeDigits (c :: r) with
      | (ds, r2) => some (.jnum (digitsToNat ds : Int), r2)) := by
  rw [parseVal.eq_def]
  dsimp only
  rw [skipWs_cons_not (isDig_not_ws hc)]
  dsimp only
  rw [if_neg (isDig_ne hc (by decide)), if_neg (isDig_ne hc (by decide)),
    if_neg (isDig_ne hc (by decide)), if_neg (isDig_ne hc (by decide)),
    if_neg (isDig_ne hc (by decide)), if_neg (isDig_ne hc (by decide)),
    if_neg (isDig_ne hc (by decide)), if_pos hc]

theorem parseElems_succ (fuel : Nat) (cs : List Char) :
    parseElems (fuel + 1) cs =
      (match parseVal fuel cs with
      | none => none
      | some (v, r1) =>
        match skipWs r1 with
        | [] => none
        | d :: r2 =>
          if d = ',' then
            match parseElems fuel r2 with
            | some (tail, r3) => some (.acons v tail, r3)
            | none => none
          else if d = ']' then some (.acons v .anil, r2)
          else none) := by
  rw [parseElems.eq_def]

theorem parseMembers_succ (fuel : Nat) (cs : List Char) :
    parseMembers (fuel + 1) cs =
      (match skipWs cs with
      | [] => none
      | c :: r =>
        if c = '"' then
          match parseStrBody r with
          | none => none
          | some (k, r1) =>
            match skipWs r1 with
            | [] => none
            | e :: r2 =>
              if e = ':' then
                match parseVal fuel r2 with
                | none => none
                | some (v, r3) =>
                  match skipWs r3 with
                  | [] => none
                  | g :: r4 =>
                    if g = ',' then
                      match parseMembers fuel r4 with
                      | some (tail, r5) => some (.ocons k v tail, r5)
                      | none => none
                    else if g = rbrace then some (.ocons k v .onil, r4)
                    else none
              else none
        else none) := by
  rw [parseMembers.eq_def]

theorem parseVal_intChars (fuel : Nat) (i : Int) (rest : List Char)
    (hr : ndHead rest = true) :
    parseVal (fuel + 1) (intChars i ++ rest) = some (.jnum i, rest) := by
  unfold intChars
  by_cases hneg : i < 0
  · rw [if_pos hneg, List.cons_append, parseVal_cons_neg]
    obtain ⟨c, t, hct⟩ := List.exists_cons_of_ne_nil (natChars_ne_nil i.natAbs)
    rw [takeDigits_app _ _ (fun c hc => natChars_digits hc) hr, hct]
    dsimp only
    rw [← hct, digitsToNat_natChars]
    have : -(i.natAbs : Int) = i := by omega
    rw [this]
  · rw [if_neg hneg]
    obtain ⟨c, t, hct⟩ := List.exists_cons_of_ne_nil (natChars_ne_nil i.natAbs)
    have hc : isDig c = true := natChars_digits (by rw [hct]; exact List.mem_cons_self c t)
    rw [hct, List.cons_append, parseVal_cons_digit fuel _ hc, ← List.cons_append, ← hct,
      takeDigits_app _ _ (fun c hc => natChars_digits hc) hr]
    dsimp only
    rw [digitsToNat_natChars]
    have : (i.natAbs : Int) = i := by omega
    rw [this]

theorem strVal_head (v : Jval) : ∃ c t, strVal v = c :: t ∧ isWs c = false ∧
    c ≠ ']' ∧ c ≠ ',' ∧ c ≠ rbrace ∧ c ≠ ':' := by
  cases v with
  | jnull => exact ⟨'n', _, rfl, by decide, by decide, by decide, by decide, by decide⟩
  | jbool b =>
    cases b
    · exact ⟨'f', _, rfl, by decide, by decide, by decide, by decide, by decide⟩
    · exact ⟨'t', _, rfl, by decide, by decide, by decide, by decide, by decide⟩
  | jnum i =>
    have hs : strVal (.jnum i) = intChars i := rfl
    rw [hs]; unfold intChars
    by_cases h : i < 0
    · rw [if_pos h]
      exact ⟨'-', _, rfl, by decide, by decide, by decide, by decide, by decide⟩
    · rw [if_neg h]
      obtain ⟨c, t, hct⟩ := List.exists_cons_of_ne_nil (natChars_ne_nil i.natAbs)
      have hc : isDig c = true := natChars_digits (hct ▸ List.mem_cons_self c t)
      exact ⟨c, t, hct, isDig_not_ws hc, isDig_ne hc (by decide), isDig_ne hc (by decide),
        isDig_ne hc (by decide), isDig_ne hc (by decide)⟩
  | jstr s => exact ⟨'"', _, rfl, by decide, by decide, by decide, by decide, by decide⟩
  | jarr a => exact ⟨'[', _, rfl, by decide, by decide, by decide, by decide, by decide⟩
  | jobj o => exact ⟨lbrace, _, rfl, by decide, by decide, by decide, by decide, by decide⟩

/-- What follows a leading array element in serialized form. -/
def arrTail : Jarr → List Char → List Char
  | .anil, rest => ']' :: rest
  | .acons w t, rest => ',' :: (strArr (.acons w t) ++ ']' :: rest)

/-- What follows a leading object member's value in serialized form. -/
def objTail : Jobj → List Char → List Char
  | .onil, rest => rbrace :: rest
  | .ocons k2 w t, rest => ',' :: (strObj (.ocons k2 w t) ++ rbrace :: rest)

theorem strObj_split (k : List Char) (w : Jval) (t : Jobj) (rest : List Char) :
    strObj (.ocons k w t) ++ rbrace :: rest
      = '"' :: (escStr k ++ '"' :: ':' :: (strVal w ++ objTail t rest)) := by
  cases t <;> simp [strObj, objTail, List.append_assoc]

theorem ndHead_objTail (t : Jobj) (rest : List Char) : ndHead (objTail t rest) = true := by
  cases t <;> simp [objTail, ndHead] <;> decide

theorem ndHead_arrTail (t : Jarr) (rest : List Char) : ndHead (arrTail t rest) = true := by
  cases t <;> simp [arrTail, ndHead] <;> decide

theorem ndHead_cons (c : Char) (t : List Char) (h : isDig c = false) :
    ndHead (c :: t) = true := by
  simp [ndHead, h]

/-- Round-trip between `strVal` (`JSON.stringify`) and the parser, stated
with the fuel bounded below by the node count and proved by strong
induction on that bound. -/
theorem roundtrip : ∀ N : Nat,
    (∀ v : Jval, sizeV v ≤ N → ∀ fuel, sizeV v ≤ fuel → ∀ rest, ndHead rest = true →
      parseVal fuel (strVal v ++ rest) = some (v, rest)) ∧
    (∀ (v : Jval) (a : Jarr), sizeA (.acons v a) ≤ N → ∀ fuel, sizeA (.acons v a) ≤ fuel →
      ∀ rest, parseElems fuel (strArr (.acons v a) ++ ']' :: rest) = some (.acons v a, rest)) ∧
    (∀ (k : List Char) (v : Jval) (o : Jobj), sizeO (.ocons k v o) ≤ N →
      ∀ fuel, sizeO (.ocons k v o) ≤ fuel →
      ∀ rest, parseMembers fuel (strObj (.ocons k v o) ++ rbrace :: rest)
        = some (.ocons k v o, rest)) := by
  intro N
  induction N using Nat.strong_induction_on with
  | _ N IH =>
  refine ⟨?_, ?_, ?_⟩
  · -- values
    intro v hvN fuel hvf rest hrest
    obtain ⟨f, rfl⟩ : ∃ f, fuel = f + 1 :=
      ⟨fuel - 1, by have := sizeV_pos v; omega⟩
    cases v with
    | jnull =>
      show parseVal (f + 1) ('n' :: 'u' :: 'l' :: 'l' :: rest) = _
      rw [parseVal_cons_null]
      simp [stripLit]
    | jbool b =>
      cases b
      · show parseVal (f + 1) ('f' :: 'a' :: 'l' :: 's' :: 'e' :: rest) = _
        rw [parseVal_cons_false]
        simp [stripLit]
      · show parseVal (f + 1) ('t' :: 'r' :: 'u' :: 'e' :: rest) = _
        rw [parseVal_cons_true]
        simp [stripLit]
    | jnum i =>
      show parseVal (f + 1) (intChars i ++ rest) = _
      rw [parseVal_intChars f i rest hrest]
    | jstr s =>
      show parseVal (f + 1) ('"' :: ((escStr s ++ ['"']) ++ rest)) = _
      rw [List.append_assoc, List.singleton_append, parseVal_cons_quote,
        parseStrBody_escStr]
      rfl
    | jarr a =>
      cases a with
      | anil =>
        show parseVal (f + 1) ('[' :: ((strArr .anil ++ [']']) ++ rest)) = _
        rw [parseVal_cons_arr]
        show (match skipWs (']' :: rest) with
          | [] => none
          | d :: r2 =>
            if d = ']' then some (Jval.jarr Jarr.anil, r2)
            else (parseElems f (']' :: rest)).map
              (fun p => (Jval.jarr p.1, p.2))) = some (Jval.jarr Jarr.anil, rest)
        rw [skipWs_cons_not (by decide)]
        simp
      | acons w t =>
        show parseVal (f + 1) ('[' :: ((strArr (.acons w t) ++ [']']) ++ rest)) = _
        rw [List.append_assoc, List.singleton_append, parseVal_cons_arr]
        obtain ⟨c, ct, hct, hws, hne1, hne2, hne3, hne4⟩ := strVal_head w
        have harr : strArr (.acons w t) ++ ']' :: rest = c :: (ct ++ arrTail t rest) := by
          cases t <;> simp [strArr, hct, arrTail, List.append_assoc]
        rw [harr, skipWs_cons_not hws]
        dsimp only
        rw [if_neg hne1, ← harr]
        have hszv : sizeV (.jarr (.acons w t)) = sizeA (.acons w t) + 1 := rfl
        have hlt : sizeA (.acons w t) < N := by
          have := sizeV_pos (.jarr (.acons w t)); omega
        have h2 := (IH _ hlt).2.1 w t le_rfl f (by omega) rest
        rw [h2]
        rfl
    | jobj o =>
      cases o with
      | onil =>
        show parseVal (f + 1) (lbrace :: ((strObj .onil ++ [rbrace]) ++ rest)) = _
        rw [parseVal_cons_obj]
        show (match skipWs (rbrace :: rest) with
          | [] => none
          | d :: r2 =>
            if d = rbrace then some (Jval.jobj Jobj.onil, r2)
            else (parseMembers f (rbrace :: rest)).map
              (fun p => (Jval.jobj p.1, p.2))) = some (Jval.jobj Jobj.onil, rest)
        rw [skipWs_cons_not (by decide)]
        simp
      | ocons k w t =>
        show parseVal (f + 1) (lbrace :: ((strObj (.ocons k w t) ++ [rbrace]) ++ rest)) = _
        rw [List.append_assoc, List.singleton_append, parseVal_cons_obj]
        rw [strObj_split, skipWs_cons_not (by decide)]
        dsimp only
        rw [if_neg (by decide), ← strObj_split]
        have hlt : sizeO (.ocons k w t) < N := by
          have := sizeV_pos (.jobj (.ocons k w t))
          have hsz : sizeV (.jobj (.ocons k w t)) = sizeO (.ocons k w t) + 1 := rfl
          omega
        have h3 := (IH _ hlt).2.2 k w t le_rfl f (by
          have hsz : sizeV (.jobj (.ocons k w t)) = sizeO (.ocons k w t) + 1 := rfl
          omega) rest
        rw [h3]
        rfl
  · -- array elements
    intro v a hN fuel hf rest
    obtain ⟨f, rfl⟩ : ∃ f, fuel = f + 1 :=
      ⟨fuel - 1, by have := sizeV_pos v; simp [sizeA] at hf; omega⟩
    rw [parseElems_succ]
    have hszv := sizeV_pos v
    have hvlt : sizeV v < N := by simp [sizeA] at hN; omega
    cases a with
    | anil =>
      have h1 := (IH _ hvlt).1 v le_rfl f (by simp [sizeA] at hf; omega)
        (']' :: rest) (ndHead_cons _ _ (by decide))
      show (match parseVal f (strVal v ++ ']' :: rest) with
        | none => none
        | some (w, r1) =>
          match skipWs r1 with
          | [] => none
          | d :: r2 =>
            if d = ',' then
              match parseElems f r2 with
              | some (tail, r3) => some (Jarr.acons w tail, r3)
              | none => none
            else if d = ']' then some (Jarr.acons w Jarr.anil, r2)
            else none) = some (Jarr.acons v Jarr.anil, rest)
      rw [h1]
      dsimp only
      rw [skipWs_cons_not (by decide)]
      simp
    | acons w t =>
      have h1 := (IH _ hvlt).1 v le_rfl f (by simp [sizeA] at hf; omega)
        (',' :: (strArr (.acons w t) ++ ']' :: rest)) (ndHead_cons _ _ (by decide))
      have hsplit : strArr (.acons v (.acons w t)) ++ ']' :: rest
          = strVal v ++ ',' :: (strArr (.acons w t) ++ ']' :: rest) := by
        simp [strArr, List.append_assoc]
      rw [hsplit, h1]
      dsimp only
      rw [skipWs_cons_not (by decide)]
      dsimp only
      rw [if_pos rfl]
      have hlt2 : sizeA (.acons w t) < N := by simp [sizeA] at hN ⊢; omega
      have h2 := (IH _ hlt2).2.1 w t le_rfl f (by simp [sizeA] at hf ⊢; omega) rest
      rw [h2]
  · -- object members
    intro k v o hN fuel hf rest
    obtain ⟨f, rfl⟩ : ∃ f, fuel = f + 1 :=
      ⟨fuel - 1, by have := sizeV_pos v; simp [sizeO] at hf; omega⟩
    rw [parseMembers_succ]
    have hszv := sizeV_pos v
    have hvlt : sizeV v < N := by simp [sizeO] at hN; omega
    cases o with
    | onil =>
      have hsplit : strObj (.ocons k v .onil) ++ rbrace :: rest
          = '"' :: (escStr k ++ '"' :: ':' :: (strVal v ++ rbrace :: rest)) := by
        simp [strObj, List.append_assoc]
      rw [hsplit, skipWs_cons_not (by decide)]
      dsimp only
      rw [if_pos rfl, parseStrBody_escStr]
      dsimp only
      rw [skipWs_cons_not (by decide)]
      dsimp only
      rw [if_pos rfl]
      have h1 := (IH _ hvlt).1 v le_rfl f (by simp [sizeO] at hf; omega)
        (rbrace :: rest) (ndHead_cons _ _ (by decide))
      rw [h1]
      dsimp only
      rw [skipWs_cons_not (by decide)]
      dsimp only
      rw [if_neg (by decide), if_pos rfl]
    | ocons k2 w t =>
      have hsplit : strObj (.ocons k v (.ocons k2 w t)) ++ rbrace :: rest
          = '"' :: (escStr k ++ '"' :: ':' ::
              (strVal v ++ ',' :: (strObj (.ocons k2 w t) ++ rbrace :: rest))) := by
        simp [strObj, List.append_assoc]
      rw [hsplit, skipWs_cons_not (by decide)]
      dsimp only
      rw [if_pos rfl, parseStrBody_escStr]
      dsimp only
      rw [skipWs_cons_not (by decide)]
      dsimp only
      rw [if_pos rfl]
      have h1 := (IH _ hvlt).1 v le_rfl f (by simp [sizeO] at hf; omega)
        (',' :: (strObj (.ocons k2 w t) ++ rbrace :: rest)) (ndHead_cons _ _ (by decide))
      rw [h1]
      dsimp only
      rw [skipWs_cons_not (by decide)]
      dsimp only
      rw [if_pos rfl]
      have hlt2 : sizeO (.ocons k2 w t) < N := by simp [sizeO] at hN ⊢; omega
      have h3 := (IH _ hlt2).2.2 k2 w t le_rfl f (by simp [sizeO] at hf ⊢; omega) rest
      rw [h3]

theorem parseVal_strVal (v : Jval) (fuel : Nat) (h : sizeV v ≤ fuel)
    (rest : List Char) (hrest : ndHead rest = true) :
    parseVal fuel (strVal v ++ rest) = some (v, rest) :=
  (roundtrip (sizeV v)).1 v le_rfl fuel h rest hrest

theorem intChars_ne_nil (i : Int) : intChars i ≠ [] := by
  unfold intChars
  by_cases h : i < 0
  · rw [if_pos h]; simp
  · rw [if_neg h]; exact natChars_ne_nil _

/-- The serialized form is at least as long as the node count (minus the
closing bracket slack), so `length + 1` is always enough parser fuel. -/
theorem size_le_len : ∀ N : Nat,
    (∀ v : Jval, sizeV v ≤ N → sizeV v ≤ (strVal v).length) ∧
    (∀ a : Jarr, sizeA a ≤ N → sizeA a ≤ (strArr a).length + 1) ∧
    (∀ o : Jobj, sizeO o ≤ N → sizeO o ≤ (strObj o).length + 1) := by
  intro N
  induction N using Nat.strong_induction_on with
  | _ N IH =>
  refine ⟨?_, ?_, ?_⟩
  · intro v hv
    cases v with
    | jnull => simp [sizeV, strVal]
    | jbool b => cases b <;> simp [sizeV, strVal]
    | jnum i =>
      have h1 : strVal (.jnum i) = intChars i := rfl
      have h2 : intChars i ≠ [] := intChars_ne_nil i
      have : 1 ≤ (intChars i).length := by
        cases hi : intChars i with
        | nil => exact absurd hi h2
        | cons c t => simp
      simp [sizeV, h1]; omega
    | jstr s =>
      have h1 : strVal (.jstr s) = '"' :: (escStr s ++ ['"']) := rfl
      simp [sizeV, h1]
    | jarr a =>
      have h1 : strVal (.jarr a) = '[' :: (strArr a ++ [']']) := rfl
      have hlt : sizeA a < N := by
        have : sizeV (.jarr a) = sizeA a + 1 := rfl
        omega
      have h2 := (IH _ hlt).2.1 a le_rfl
      have : sizeV (.jarr a) = sizeA a + 1 := rfl
      simp [h1, this]; omega
    | jobj o =>
      have h1 : strVal (.jobj o) = lbrace :: (strObj o ++ [rbrace]) := rfl
      have hlt : sizeO o < N := by
        have : sizeV (.jobj o) = sizeO o + 1 := rfl
        omega
      have h2 := (IH _ hlt).2.2 o le_rfl
      have : sizeV (.jobj o) = sizeO o + 1 := rfl
      simp [h1, this]; omega
  · intro a ha
    cases a with
    | anil => simp [sizeA, strArr]
    | acons v t =>
      have hsz : sizeA (.acons v t) = sizeV v + sizeA t + 1 := rfl
      have hszv := sizeV_pos v
      have hvlt : sizeV v < N := by omega
      have h1 := (IH _ hvlt).1 v le_rfl
      cases t with
      | anil =>
        have h2 : strArr (.acons v .anil) = strVal v := rfl
        simp [hsz, h2, sizeA]
        exact h1
      | acons w t2 =>
        have h2 : strArr (.acons v (.acons w t2))
            = strVal v ++ ',' :: strArr (.acons w t2) := rfl
        have htlt : sizeA (.acons w t2) < N := by
          have : 1 ≤ sizeA (.acons w t2) := by
            simp [sizeA]
          omega
        have h3 := (IH _ htlt).2.1 (.acons w t2) le_rfl
        simp only [hsz, h2, List.length_append, List.length_cons]
        omega
  · intro o ho
    cases o with
    | onil => simp [sizeO, strObj]
    | ocons k v t =>
      have hsz : sizeO (.ocons k v t) = sizeV v + sizeO t + 1 := rfl
      have hszv := sizeV_pos v
      have hvlt : sizeV v < N := by omega
      have h1 := (IH _ hvlt).1 v le_rfl
      cases t with
      | onil =>
        have h2 : strObj (.ocons k v .onil) = '"' :: (escStr k ++ '"' :: ':' :: strVal v) := rfl
        simp [hsz, h2, sizeO]
        omega
      | ocons k2 w t2 =>
        have h2 : strObj (.ocons k v (.ocons k2 w t2))
            = ('"' :: (escStr k ++ '"' :: ':' :: strVal v)) ++ ',' :: strObj (.ocons k2 w t2) := rfl
        have htlt : sizeO (.ocons k2 w t2) < N := by
          have : 1 ≤ sizeO (.ocons k2 w t2) := by
            simp [sizeO]
          omega
        have h3 := (IH _ htlt).2.2 (.ocons k2 w t2) le_rfl
        simp only [hsz, h2, List.length_append, List.length_cons]
        omega

theorem sizeV_le_len (v : Jval) : sizeV v ≤ (strVal v).length :=
  (size_le_len (sizeV v)).1 v le_rfl

/-- `JSON.parse` succeeds exactly on a serialized value. -/
theorem jsonParse_strVal (v : Jval) : jsonParseChars (strVal v) = some v := by
  unfold jsonParseChars
  have h := parseVal_strVal v ((strVal v).length + 1)
    (by have := sizeV_le_len v; omega) [] rfl
  rw [List.append_nil] at h
  rw [h]
  rfl

/-- `JSON.parse` throws (models as `none`) when non-whitespace text follows
a serialized value. -/
theorem jsonParse_strVal_app (v : Jval) (rest : List Char)
    (hrest : ndHead rest = true) (hne : skipWs rest ≠ []) :
    jsonParseChars (strVal v ++ rest) = none := by
  unfold jsonParseChars
  have h := parseVal_strVal v ((strVal v ++ rest).length + 1)
    (by have := sizeV_le_len v; simp [List.length_append]; omega) rest hrest
  rw [h]
  dsimp only
  rw [if_neg hne]

/-- Prefix test on character lists (Boolean). -/
def isPre : List Char → List Char → Bool
  | [], _ => true
  | _ :: _, [] => false
  | c :: cs, d :: ds => c = d && isPre cs ds

/-- First index at which `needle` occurs in `hay`, starting the count at
`i` (models `String.prototype.indexOf`, `none` for `-1`). -/
def idxOfSubAux (needle : List Char) : List Char → Nat → Option Nat
  | [], i => if isPre needle [] then some i else none
  | c :: t, i => if isPre needle (c :: t) then some i else idxOfSubAux needle t (i + 1)

/-- `hay.indexOf(needle)`. -/
def idxOfSub (needle hay : List Char) : Option Nat := idxOfSubAux needle hay 0

/-- `hay.indexOf(needle, start)` (searches from `start`, reports an
absolute index). -/
def idxOfSubFrom (needle hay : List Char) (start : Nat) : Option Nat :=
  (idxOfSub needle (hay.drop start)).map (· + start)

/-- `hay.includes(needle)`. -/
def containsSub (needle hay : List Char) : Bool := (idxOfSub needle hay).isSome

/-- Index of the last occurrence of the character `c`. -/
def lastIdxOf (c : Char) : List Char → Option Nat
  | [] => none
  | d :: t =>
    match lastIdxOf c t with
    | some j => some (j + 1)
    | none => if d = c then some 0 else none

/-- `String.prototype.trim` for the whitespace this development meets. -/
def trimBoth (s : List Char) : List Char :=
  (skipWs ((skipWs s).reverse)).reverse

/-- `String.prototype.substring` with JavaScript clamping and swapping of
out-of-range or inverted bounds (`-1` from a failed `indexOf` lands here). -/
def jsSubstring (s : List Char) (a b : Int) : List Char :=
  let n : Int := s.length
  let a2 := min (max a 0) n
  let b2 := min (max b 0) n
  let lo := min a2 b2
  let hi := max a2 b2
  (s.take hi.toNat).drop lo.toNat

/-- The literal three-backtick fence marker. -/
def fenceMark : List Char := [btick, btick, btick]

/-- The literal tag characters of a `json`-tagged fence opening. -/
def jsonTag : List Char := ['j', 's', 'o', 'n']

/-- The literal seven-character fence opening with `json` tag. -/
def fenceTagJson : List Char := fenceMark ++ jsonTag

/-- Skip an optional `json` tag (the regex's `(?:json)?`). -/
def stripJsonTag (l : List Char) : List Char :=
  match stripLit jsonTag l with
  | some r => r
  | none => l

/-- The capture of the fence regex in `parseJSONFromResponse`
(`retry_claude_json_scheduled.js`): text between the first fence marker
(skipping an immediately following `json` tag) and the next fence marker,
with surrounding whitespace stripped — the regex's greedy/lazy
whitespace-and-capture groups produce exactly this. -/
def fenceExtract (text : List Char) : Option (List Char) :=
  match idxOfSub fenceMark text with
  | none => none
  | some i =>
    match idxOfSub fenceMark (stripJsonTag (text.drop (i + 3))) with
    | none => none
    | some j => some (trimBoth ((stripJsonTag (text.drop (i + 3))).take j))

/-- The match of the greedy brace regex in `parseJSONFromResponse`: from
the first opening brace to the last closing brace of the whole string. -/
def braceExtract (text : List Char) : Option (List Char) :=
  match idxOfSub [lbrace] text, lastIdxOf rbrace text with
  | some i, some j => if i < j then some ((text.take (j + 1)).drop i) else none
  | _, _ => none

/-- `parseJSONFromResponse` from `retry_claude_json_scheduled.js`: direct
parse; else fenced-block capture (a parse failure there escapes to the
outer catch and yields `null` without trying the brace stage); else the
greedy first-brace-to-last-brace region. -/
def parseJSONFromResponse (text : List Char) : Option Jval :=
  match jsonParseChars text with
  | some v => some v
  | none =>
    match fenceExtract text with
    | some cap => jsonParseChars cap
    | none =>
      match braceExtract text with
      | some sub => jsonParseChars sub
      | none => none

/-- The inline response parsing of `processSinglePdf` (email-poller.js):
if the text contains the seven-character tagged fence opening, take the
substring from just after it to the next fence marker (JavaScript
`substring` swap semantics when the closing marker is missing), trim it,
and `JSON.parse`; otherwise `JSON.parse` the whole text.  A parse throw is
caught by the surrounding `catch` and modelled as `none`. -/
def inlineParse (analysis : List Char) : Option Jval :=
  if containsSub fenceTagJson analysis then
    let startIdx : Int := ((idxOfSub fenceTagJson analysis).getD 0 : Nat) + 7
    let endIdx : Int :=
      match idxOfSubFrom fenceMark analysis startIdx.toNat with
      | some j => (j : Int)
      | none => -1
    jsonParseChars (trimBoth (jsSubstring analysis startIdx endIdx))
  else jsonParseChars analysis

/-- The fenced wrapping used in §8's P1: the serialized text placed inside
a tagged fence block. -/
def fenceWrap (s : List Char) : List Char :=
  fenceTagJson ++ '\n' :: (s ++ '\n' :: fenceMark)

/-- The first suffix of §8's P1. -/
def sfxNote : List Char := "\n\n trailing note".data

/-- The second suffix of §8's P1. -/
def sfxBold : List Char := "\n\n**bold note**".data

theorem isPre_self_append (l t : List Char) : isPre l (l ++ t) = true := by
  induction l with
  | nil => rfl
  | cons c cs ih => simp [isPre, ih]

theorem idxOfSub_of_isPre {needle hay : List Char} (h : isPre needle hay = true) :
    idxOfSub needle hay = some 0 := by
  cases hay with
  | nil => simp [idxOfSub, idxOfSubAux, h]
  | cons c t => simp [idxOfSub, idxOfSubAux, h]

theorem idxOfSubAux_shift (needle : List Char) :
    ∀ (hay : List Char) (i : Nat),
      idxOfSubAux needle hay i = (idxOfSubAux needle hay 0).map (· + i) := by
  intro hay
  induction hay with
  | nil => intro i; by_cases hp : isPre needle [] <;> simp [idxOfSubAux, hp]
  | cons c t ih =>
    intro i
    simp only [idxOfSubAux]
    split
    · simp
    · rw [ih (i + 1), ih 1]
      cases idxOfSubAux needle t 0
      · simp
      · simp; omega

theorem idxOfSub_not_head {n1 : Char} {nt hay : List Char} (h : n1 ∉ hay) :
    idxOfSub (n1 :: nt) hay = none := by
  induction hay with
  | nil => rfl
  | cons c t ih =>
    have hc : n1 ≠ c := fun he => h (he ▸ List.mem_cons_self c t)
    have ht : n1 ∉ t := fun he => h (List.mem_cons_of_mem c he)
    simp only [idxOfSub, idxOfSubAux]
    rw [if_neg (by simp [isPre, hc])]
    rw [idxOfSubAux_shift]
    have := ih ht
    simp only [idxOfSub] at this
    rw [this]
    rfl

theorem idxOfSub_boundary {n1 : Char} {nt a : List Char} (hb : n1 ∉ a) :
    idxOfSub (n1 :: nt) (a ++ n1 :: nt) = some a.length := by
  induction a with
  | nil => simpa using idxOfSub_of_isPre (isPre_self_append (n1 :: nt) [])
  | cons c t ih =>
    have hc : n1 ≠ c := fun he => hb (he ▸ List.mem_cons_self c t)
    have ht : n1 ∉ t := fun he => hb (List.mem_cons_of_mem c he)
    simp only [List.cons_append, idxOfSub, idxOfSubAux]
    rw [if_neg (by simp [isPre, hc])]
    rw [idxOfSubAux_shift]
    have := ih ht
    simp only [idxOfSub] at this
    simp only [List.append_eq]
    rw [this]
    simp

theorem stripLit_self (l r : List Char) : stripLit l (l ++ r) = some r := by
  induction l with
  | nil => rfl
  | cons c cs ih => simp [stripLit, ih]

theorem lastIdxOf_none {c : Char} {l : List Char} (h : c ∉ l) : lastIdxOf c l = none := by
  induction l with
  | nil => rfl
  | cons d t ih =>
    have hd : d ≠ c := fun he => h (he ▸ List.mem_cons_self d t)
    have ht : c ∉ t := fun he => h (List.mem_cons_of_mem d he)
    simp [lastIdxOf, ih ht, hd]

theorem lastIdxOf_append_right {c : Char} {a b : List Char} (h : c ∉ b) :
    lastIdxOf c (a ++ b) = lastIdxOf c a := by
  induction a with
  | nil => simp [lastIdxOf_none h, lastIdxOf]
  | cons d t ih => simp [lastIdxOf, ih]

theorem lastIdxOf_concat_self (c : Char) (a : List Char) :
    lastIdxOf c (a ++ [c]) = some a.length := by
  induction a with
  | nil => simp [lastIdxOf]
  | cons d t ih => simp [lastIdxOf, ih]

theorem skipWs_ws_cons {c : Char} (x : List Char) (h : isWs c = true) :
    skipWs (c :: x) = skipWs x := by
  simp [skipWs, h]

theorem trimBoth_wrap (c e : Char) (mid : List Char) (hc : isWs c = false)
    (he : isWs e = false) :
    trimBoth ('\n' :: ((c :: (mid ++ [e])) ++ ['\n'])) = c :: (mid ++ [e]) := by
  unfold trimBoth
  rw [skipWs_ws_cons _ (by decide)]
  rw [show (c :: (mid ++ [e])) ++ ['\n'] = c :: ((mid ++ [e]) ++ ['\n']) from rfl]
  rw [skipWs_cons_not hc]
  have hrev : (c :: ((mid ++ [e]) ++ ['\n'])).reverse
      = '\n' :: (e :: (mid.reverse ++ [c])) := by simp
  rw [hrev, skipWs_ws_cons _ (by decide), skipWs_cons_not he]
  simp

theorem fenceExtract_none {text : List Char} (hb : btick ∉ text) :
    fenceExtract text = none := by
  unfold fenceExtract
  rw [show fenceMark = btick :: [btick, btick] from rfl, idxOfSub_not_head hb]

theorem fenceExtract_wrap (x : List Char) (hb : btick ∉ x) :
    fenceExtract (fenceWrap x) = some (trimBoth ('\n' :: (x ++ ['\n']))) := by
  unfold fenceExtract fenceWrap
  have h0 : idxOfSub fenceMark (fenceTagJson ++ '\n' :: (x ++ '\n' :: fenceMark))
      = some 0 := by
    apply idxOfSub_of_isPre
    rw [show fenceTagJson = fenceMark ++ jsonTag from rfl, List.append_assoc]
    exact isPre_self_append _ _
  rw [h0]
  dsimp only
  have h1 : stripJsonTag ((fenceTagJson ++ '\n' :: (x ++ '\n' :: fenceMark)).drop (0 + 3))
      = '\n' :: (x ++ '\n' :: fenceMark) := by
    have hdrop : (fenceTagJson ++ '\n' :: (x ++ '\n' :: fenceMark)).drop (0 + 3)
        = jsonTag ++ ('\n' :: (x ++ '\n' :: fenceMark)) := rfl
    rw [hdrop]
    unfold stripJsonTag
    rw [stripLit_self]
  rw [h1]
  have hsplit : '\n' :: (x ++ '\n' :: fenceMark)
      = ('\n' :: (x ++ ['\n'])) ++ fenceMark := by simp
  have h2 : idxOfSub fenceMark ('\n' :: (x ++ '\n' :: fenceMark))
      = some (x.length + 2) := by
    rw [hsplit, show fenceMark = btick :: [btick, btick] from rfl]
    have hbm : btick ∉ '\n' :: (x ++ ['\n']) := by
      intro hmem
      rcases List.mem_cons.1 hmem with h | h
      · exact absurd h.symm (by decide)
      · rcases List.mem_append.1 h with h | h
        · exact hb h
        · simp at h; exact absurd h.symm (by decide)
    have := @idxOfSub_boundary btick [btick, btick] _ hbm
    simpa using this
  rw [h2]
  have h3 : ('\n' :: (x ++ '\n' :: fenceMark)).take (x.length + 2)
      = '\n' :: (x ++ ['\n']) := by
    rw [hsplit]
    have : x.length + 2 = ('\n' :: (x ++ ['\n'])).length := by simp
    rw [this, List.take_left]
  dsimp only
  rw [h3]

theorem braceExtract_obj_app (o : Jobj) (suffix : List Char)
    (hbra : rbrace ∉ suffix) :
    braceExtract (strVal (.jobj o) ++ suffix) = some (strVal (.jobj o)) := by
  unfold braceExtract
  have hs : strVal (.jobj o) = lbrace :: (strObj o ++ [rbrace]) := rfl
  have h0 : idxOfSub [lbrace] (strVal (.jobj o) ++ suffix) = some 0 := by
    apply idxOfSub_of_isPre
    rw [hs]
    simp [isPre]
  have h1 : lastIdxOf rbrace (strVal (.jobj o) ++ suffix)
      = some ((strObj o).length + 1) := by
    rw [lastIdxOf_append_right hbra, hs,
      show lbrace :: (strObj o ++ [rbrace]) = (lbrace :: strObj o) ++ [rbrace] from by simp,
      lastIdxOf_concat_self]
    simp
  rw [h0, h1]
  dsimp only
  rw [if_pos (by omega)]
  have h2 : ((strVal (.jobj o) ++ suffix).take ((strObj o).length + 1 + 1)).drop 0
      = strVal (.jobj o) := by
    rw [List.drop_zero]
    have : (strObj o).length + 1 + 1 = (strVal (.jobj o)).length := by
      rw [hs]; simp
    rw [this, List.take_left]
  rw [h2]

theorem parseVal_cons_other (fuel : Nat) {c : Char} (r : List Char)
    (h0 : isWs c = false) (h1 : c ≠ 'n') (h2 : c ≠ 't') (h3 : c ≠ 'f')
    (h4 : c ≠ '"') (h5 : c ≠ '[') (h6 : c ≠ lbrace) (h7 : c ≠ '-')
    (h8 : isDig c = false) :
    parseVal (fuel + 1) (c :: r) = none := by
  rw [parseVal.eq_def]
  dsimp only
  rw [skipWs_cons_not h0]
  dsimp only
  rw [if_neg h1, if_neg h2, if_neg h3, if_neg h4, if_neg h5, if_neg h6, if_neg h7,
    if_neg (by simp [h8])]

theorem jsonParse_btick_head (t : List Char) : jsonParseChars (btick :: t) = none := by
  unfold jsonParseChars
  rw [parseVal_cons_other _ _ (by decide) (by decide) (by decide) (by decide)
    (by decide) (by decide) (by decide) (by decide) (by decide)]

theorem btick_not_mem_append {a b : List Char} (ha : btick ∉ a) (hbn : btick ∉ b) :
    btick ∉ a ++ b := by
  intro hmem
  rcases List.mem_append.1 hmem with h | h
  · exact ha h
  · exact hbn h

/-- General behaviour of `parseJSONFromResponse` on a serialized object
followed by one of the P1 suffixes, fenced or not: confirmed for the
unfenced cases and the fenced empty-suffix case; refuted (result is a
parse failure, `none`) when a non-empty suffix sits inside the fence. -/
theorem parseJSONFromResponse_cases (o : Jobj) (hb : btick ∉ strVal (.jobj o)) :
    parseJSONFromResponse (strVal (.jobj o)) = some (.jobj o) ∧
    parseJSONFromResponse (strVal (.jobj o) ++ sfxNote) = some (.jobj o) ∧
    parseJSONFromResponse (strVal (.jobj o) ++ sfxBold) = some (.jobj o) ∧
    parseJSONFromResponse (fenceWrap (strVal (.jobj o))) = some (.jobj o) ∧
    parseJSONFromResponse (fenceWrap (strVal (.jobj o) ++ sfxNote)) = none ∧
    parseJSONFromResponse (fenceWrap (strVal (.jobj o) ++ sfxBold)) = none := by
  have hs : strVal (.jobj o) = lbrace :: (strObj o ++ [rbrace]) := rfl
  refine ⟨?_, ?_, ?_, ?_, ?_, ?_⟩
  · unfold parseJSONFromResponse
    rw [jsonParse_strVal]
  · unfold parseJSONFromResponse
    rw [jsonParse_strVal_app _ _ (by decide) (by decide)]
    dsimp only
    rw [fenceExtract_none (btick_not_mem_append hb (by decide))]
    dsimp only
    rw [braceExtract_obj_app o sfxNote (by decide)]
    dsimp only
    rw [jsonParse_strVal]
  · unfold parseJSONFromResponse
    rw [jsonParse_strVal_app _ _ (by decide) (by decide)]
    dsimp only
    rw [fenceExtract_none (btick_not_mem_append hb (by decide))]
    dsimp only
    rw [braceExtract_obj_app o sfxBold (by decide)]
    dsimp only
    rw [jsonParse_strVal]
  · unfold parseJSONFromResponse
    rw [show fenceWrap (strVal (.jobj o))
        = btick :: (btick :: btick :: 'j' :: 's' :: 'o' :: 'n' ::
          ('\n' :: (strVal (.jobj o) ++ '\n' :: fenceMark))) from rfl]
    rw [jsonParse_btick_head]
    dsimp only
    rw [← show fenceWrap (strVal (.jobj o))
        = btick :: (btick :: btick :: 'j' :: 's' :: 'o' :: 'n' ::
          ('\n' :: (strVal (.jobj o) ++ '\n' :: fenceMark))) from rfl]
    rw [fenceExtract_wrap _ hb]
    dsimp only
    rw [hs, trimBoth_wrap lbrace rbrace (strObj o) (by decide) (by decide), ← hs,
      jsonParse_strVal]
  · unfold parseJSONFromResponse
    rw [show fenceWrap (strVal (.jobj o) ++ sfxNote)
        = btick :: (btick :: btick :: 'j' :: 's' :: 'o' :: 'n' ::
          ('\n' :: ((strVal (.jobj o) ++ sfxNote) ++ '\n' :: fenceMark))) from rfl]
    rw [jsonParse_btick_head]
    dsimp only
    rw [← show fenceWrap (strVal (.jobj o) ++ sfxNote)
        = btick :: (btick :: btick :: 'j' :: 's' :: 'o' :: 'n' ::
          ('\n' :: ((strVal (.jobj o) ++ sfxNote) ++ '\n' :: fenceMark))) from rfl]
    rw [fenceExtract_wrap _ (btick_not_mem_append hb (by decide))]
    dsimp only
    have hdec : strVal (.jobj o) ++ sfxNote
        = lbrace :: ((((strObj o ++ [rbrace]) ++ "\n\n trailing not".data) ++ ['e'])) := by
      rw [hs]
      simp [sfxNote]
    rw [hdec, trimBoth_wrap lbrace 'e' _ (by decide) (by decide), ← hdec,
      jsonParse_strVal_app _ _ (by decide) (by decide)]
  · unfold parseJSONFromResponse
    rw [show fenceWrap (strVal (.jobj o) ++ sfxBold)
        = btick :: (btick :: btick :: 'j' :: 's' :: 'o' :: 'n' ::
          ('\n' :: ((strVal (.jobj o) ++ sfxBold) ++ '\n' :: fenceMark))) from rfl]
    rw [jsonParse_btick_head]
    dsimp only
    rw [← show fenceWrap (strVal (.jobj o) ++ sfxBold)
        = btick :: (btick :: btick :: 'j' :: 's' :: 'o' :: 'n' ::
          ('\n' :: ((strVal (.jobj o) ++ sfxBold) ++ '\n' :: fenceMark))) from rfl]
    rw [fenceExtract_wrap _ (btick_not_mem_append hb (by decide))]
    dsimp only
    have hdec : strVal (.jobj o) ++ sfxBold
        = lbrace :: ((((strObj o ++ [rbrace]) ++ "\n\n**bold note*".data) ++ ['*'])) := by
      rw [hs]
      simp [sfxBold]
    rw [hdec, trimBoth_wrap lbrace '*' _ (by decide) (by decide), ← hdec,
      jsonParse_strVal_app _ _ (by decide) (by decide)]

/-- Property lookup on a parsed JSON object (later duplicate members
shadow earlier ones, as `JSON.parse` keeps the last). -/
def lookupO : Jobj → List Char → Option Jval
  | .onil, _ => none
  | .ocons k v rest, key =>
    match lookupO rest key with
    | some w => some w
    | none => if k = key then some v else none

/-- JavaScript property access `v.key`: outer `none` models the `TypeError`
thrown on `null`; `some none` is `undefined`. -/
def jsProp : Jval → List Char → Option (Option Jval)
  | .jnull, _ => none
  | .jobj f, key => some (lookupO f key)
  | _, _ => some none

/-- JavaScript truthiness of a JSON value. -/
def jsTruthy : Jval → Bool
  | .jnull => false
  | .jbool b => b
  | .jnum i => decide (i ≠ 0)
  | .jstr s => decide (s ≠ [])
  | .jarr _ => true
  | .jobj _ => true

/-- Truthiness of a possibly-`undefined` value. -/
def optTruthy : Option Jval → Bool
  | none => false
  | some v => jsTruthy v

/-- Array length as a JS `.length` read. -/
def alen : Jarr → Nat
  | .anil => 0
  | .acons _ t => alen t + 1

mutual
/-- JavaScript `String(v)` (used by template literals and by the regex
test's argument coercion). -/
def jsStr : Jval → List Char
  | .jnull => ['n', 'u', 'l', 'l']
  | .jbool true => ['t', 'r', 'u', 'e']
  | .jbool false => ['f', 'a', 'l', 's', 'e']
  | .jnum i => intChars i
  | .jstr s => s
  | .jarr a => joinArr a
  | .jobj _ => "[object Object]".data
termination_by structural v => v

/-- `Array.prototype.toString`: elements joined with commas, `null`
rendering as the empty string. -/
def joinArr : Jarr → List Char
  | .anil => []
  | .acons v .anil => (match v with | .jnull => [] | _ => jsStr v)
  | .acons v (.acons w t) =>
    (match v with | .jnull => [] | _ => jsStr v) ++ ',' :: joinArr (.acons w t)
termination_by structural a => a
end

/-- The `originalBillNumber` key. -/
def billKey : List Char := "originalBillNumber".data

/-- The `nardaNumber` key. -/
def nardaKey : List Char := "nardaNumber".data

/-- The `lineItems` key. -/
def lineItemsKey : List Char := "lineItems".data

/-- The `length` key (for JS `.length` reads on plain objects). -/
def lengthKey : List Char := "length".data

/-- JS `v.length` for the values met here: string and array lengths,
a literal `length` member on plain objects, `undefined` otherwise. -/
def jsLenProp : Jval → Option Jval
  | .jstr s => some (.jnum s.length)
  | .jarr a => some (.jnum (alen a))
  | .jobj f => lookupO f lengthKey
  | _ => none

/-- The strict comparison `x !== 8` of a possibly-`undefined` value. -/
def strictNe8 : Option Jval → Bool
  | some (.jnum i) => decide (i ≠ 8)
  | _ => true

/-- The regex test `/^\d{8}$/.test(x)` after JS string coercion of `x`. -/
def digits8Test (v : Jval) : Bool :=
  decide ((jsStr v).length = 8) && (jsStr v).all isDig

/-- The per-item failure condition of `validateBillNumbers`:
`!billNumber || billNumber.length !== 8 || !/^\d{8}$/.test(billNumber)`. -/
def billBad (bn : Option Jval) : Bool :=
  !(optTruthy bn)
    || strictNe8 (match bn with | some v => jsLenProp v | none => none)
    || !(match bn with | some v => digits8Test v | none => false)

/-- One collected invalid-item record
(`{index, narda, billNumber: billNumber || '(empty)', length: billNumber ? billNumber.length : 0}`). -/
structure InvalidItem where
  index : Nat
  narda : Option Jval
  billShown : Jval
  lengthShown : Option Jval
deriving DecidableEq

/-- Build the invalid-item record as the source does. -/
def mkInvalid (i : Nat) (narda : Option Jval) (bn : Option Jval) : InvalidItem :=
  { index := i
    narda := narda
    billShown :=
      match bn with
      | some v => if jsTruthy v then v else .jstr "(empty)".data
      | none => .jstr "(empty)".data
    lengthShown :=
      match bn with
      | some v => if jsTruthy v then jsLenProp v else some (.jnum 0)
      | none => some (.jnum 0) }

/-- `item.originalBillNumber`: throws on a `null` entry, `undefined` on a
non-object entry. -/
def entryBill : Jval → Option (Option Jval)
  | .jnull => none
  | .jobj f => some (lookupO f billKey)
  | _ => some none

/-- `item.nardaNumber` (only read for entries that did not throw above). -/
def entryNarda : Jval → Option Jval
  | .jobj f => lookupO f nardaKey
  | _ => none

/-- The `for` loop of `validateBillNumbers`: collect invalid records in
index order; `none` models a thrown `TypeError` aborting the validator. -/
def validateLoop : Nat → List Jval → Option (List InvalidItem)
  | _, [] => some []
  | i, item :: rest =>
    match entryBill item with
    | none => none
    | some bn =>
      match validateLoop (i + 1) rest with
      | none => none
      | some acc =>
        if billBad bn then some (mkInvalid i (entryNarda item) bn :: acc)
        else some acc

/-- Convert a parsed JSON array to a list of entries. -/
def jarrToList : Jarr → List Jval
  | .anil => []
  | .acons v t => v :: jarrToList t

/-- Template rendering of a possibly-`undefined` value. -/
def renderTpl : Option Jval → List Char
  | none => "undefined".data
  | some v => jsStr v

/-- The per-entry diagnostic line
`Line N (NARDA: x): "y" is L digits (need 8)`. -/
def renderInvalid (it : InvalidItem) : List Char :=
  "Line ".data ++ natChars (it.index + 1) ++ " (NARDA: ".data ++ renderTpl it.narda
    ++ "): \"".data ++ jsStr it.billShown ++ "\" is ".data ++ renderTpl it.lengthShown
    ++ " digits (need 8)".data

/-- `Array.prototype.join('; ')`. -/
def joinSemi : List (List Char) → List Char
  | [] => []
  | [x] => x
  | x :: y :: t => x ++ "; ".data ++ joinSemi (y :: t)

/-- The validator's outcome; a valid result carries no reason and no
records (the source returns a bare `{valid: true}`). -/
structure VOutcome where
  valid : Bool
  reason : List Char
  invalidItems : List InvalidItem
deriving DecidableEq

/-- `validateBillNumbers` from email-poller.js; `none` models the
validator itself throwing (a `null` entry in the list), which the caller's
`catch` absorbs. -/
def validateBillNumbers (extractedData : Jval) : Option VOutcome :=
  if !(jsTruthy extractedData) then some ⟨true, [], []⟩
  else
    match jsProp extractedData lineItemsKey with
    | none => none
    | some liOpt =>
      if !(optTruthy liOpt) then some ⟨true, [], []⟩
      else
        match liOpt with
        | some (.jarr a) =>
          (match validateLoop 0 (jarrToList a) with
          | none => none
          | some invs =>
            if invs.length > 0 then
              some ⟨false,
                "Invalid bill numbers found: ".data ++ joinSemi (invs.map renderInvalid),
                invs⟩
            else some ⟨true, [], []⟩)
        | _ => some ⟨true, [], []⟩

/-- An 8-character ASCII-digit string (the spec's bill-number shape). -/
def good8 (s : List Char) : Bool := decide (s.length = 8) && s.all isDig

/-- Whether an abstract entry (bill field, secondary field) passes the rule. -/
def entryGood (e : Option (List Char) × Option Jval) : Bool :=
  match e.1 with
  | some s => good8 s
  | none => false

/-- Build the JSON object for one line item from the optional string bill
field and the optional secondary (NARDA) field. -/
def entryObj (bill : Option (List Char)) (narda : Option Jval) : Jobj :=
  match bill, narda with
  | some b, some n => .ocons billKey (.jstr b) (.ocons nardaKey n .onil)
  | some b, none => .ocons billKey (.jstr b) .onil
  | none, some n => .ocons nardaKey n .onil
  | none, none => .onil

/-- List-to-array conversion for building test documents. -/
def listToJarr : List Jval → Jarr
  | [] => .anil
  | v :: t => .acons v (listToJarr t)

/-- An extraction result whose `lineItems` are the given entries. -/
def mkDoc (entries : List (Option (List Char) × Option Jval)) : Jval :=
  .jobj (.ocons lineItemsKey
    (.jarr (listToJarr (entries.map (fun e => .jobj (entryObj e.1 e.2))))) .onil)

theorem jarrToList_listToJarr (l : List Jval) : jarrToList (listToJarr l) = l := by
  induction l with
  | nil => rfl
  | cons v t ih => simp [listToJarr, jarrToList, ih]

theorem lookup_entryObj_bill (b : Option (List Char)) (n : Option Jval) :
    lookupO (entryObj b n) billKey = b.map .jstr := by
  cases b <;> cases n <;> simp [entryObj, lookupO, billKey, nardaKey]

theorem lookup_entryObj_narda (b : Option (List Char)) (n : Option Jval) :
    lookupO (entryObj b n) nardaKey = n := by
  cases b <;> cases n <;> simp [entryObj, lookupO, billKey, nardaKey]

theorem billBad_strOpt (b : Option (List Char)) :
    billBad (b.map .jstr) = !entryGood (b, none) := by
  cases b with
  | none => rfl
  | some s =>
    show billBad (some (.jstr s)) = !good8 s
    by_cases hg : good8 s = true
    · have h8 : s.length = 8 := by
        have := hg
        simp [good8] at this
        exact this.1
      have hall : s.all isDig = true := by
        have := hg
        simp [good8] at this
        simpa [List.all_eq_true] using this.2
      have hne : s ≠ [] := by
        intro he
        rw [he] at h8
        simp at h8
      simp [billBad, optTruthy, jsTruthy, jsLenProp, strictNe8, digits8Test, jsStr,
        hg, hne, h8, hall]
    · have hg2 : good8 s = false := by
        cases h : good8 s
        · rfl
        · exact absurd h hg
      rw [hg2]
      simp only [billBad, Bool.not_false]
      have : digits8Test (.jstr s) = false := by
        simpa [digits8Test, jsStr, good8] using hg2
      simp [this]

theorem validateLoop_map (entries : List (Option (List Char) × Option Jval)) :
    ∀ i, validateLoop i (entries.map (fun e => .jobj (entryObj e.1 e.2)))
      = some ((((entries.enumFrom i).filter (fun p => !entryGood p.2)).map
          (fun p => mkInvalid p.1 p.2.2 (p.2.1.map .jstr)))) := by
  induction entries with
  | nil => intro i; rfl
  | cons e t ih =>
    intro i
    simp only [List.map_cons, validateLoop]
    rw [show entryBill (.jobj (entryObj e.1 e.2)) = some (lookupO (entryObj e.1 e.2) billKey)
      from rfl]
    rw [lookup_entryObj_bill, ih (i + 1)]
    rw [show entryNarda (.jobj (entryObj e.1 e.2)) = lookupO (entryObj e.1 e.2) nardaKey
      from rfl]
    rw [lookup_entryObj_narda]
    dsimp only
    rw [billBad_strOpt]
    simp only [List.enumFrom, List.filter]
    by_cases hg : entryGood e = true
    · have : entryGood (e.1, none) = entryGood e := by
        cases e with
        | mk b n => rfl
      rw [this, hg]
      simp
    · have hg2 : entryGood e = false := by
        cases h : entryGood e
        · rfl
        · exact absurd h hg
      have : entryGood (e.1, none) = entryGood e := by
        cases e with
        | mk b n => rfl
      rw [this, hg2]
      simp

theorem filter_bad_nil_iff (entries : List (Option (List Char) × Option Jval)) :
    ∀ i, (((entries.enumFrom i).filter (fun p => !entryGood p.2)) = []
      ↔ entries.all entryGood = true) := by
  induction entries with
  | nil => intro i; simp [List.enumFrom]
  | cons e t ih =>
    intro i
    simp only [List.enumFrom, List.filter, List.all_cons]
    by_cases hg : entryGood e = true
    · rw [hg]
      simpa using ih (i + 1)
    · have hg2 : entryGood e = false := by
        cases h : entryGood e
        · rfl
        · exact absurd h hg
      rw [hg2]
      simp

theorem comma_mem_joinArr {b : Jarr} (h : alen b = 8) : ',' ∈ joinArr b := by
  match b, h with
  | .acons v (.acons w t), _ =>
    exact List.mem_append_right _ (List.mem_cons_self _ _)

/-- Passing all three checks forces the field to be a string of exactly 8
ASCII digits: every non-string value fails `.length !== 8` or the regex. -/
theorem billBad_false_elim {bn : Option Jval} (h : billBad bn = false) :
    ∃ s, bn = some (.jstr s) ∧ good8 s = true := by
  match bn with
  | none => simp [billBad, optTruthy] at h
  | some .jnull => simp [billBad, optTruthy, jsTruthy] at h
  | some (.jbool bb) =>
    cases bb
    · simp [billBad, optTruthy, jsTruthy] at h
    · simp [billBad, optTruthy, jsTruthy, jsLenProp, strictNe8] at h
  | some (.jnum i) =>
    simp [billBad, optTruthy, jsTruthy, jsLenProp, strictNe8] at h
  | some (.jstr s) =>
    refine ⟨s, rfl, ?_⟩
    have hb := billBad_strOpt (some s)
    simp only [Option.map] at hb
    rw [hb] at h
    simpa [entryGood] using h
  | some (.jarr b) =>
    exfalso
    have hlen : alen b = 8 := by
      by_contra hne
      have hs8 : strictNe8 (jsLenProp (.jarr b)) = true := by
        simp [jsLenProp, strictNe8]
        omega
      simp [billBad, hs8] at h
    have hcomma : ',' ∈ joinArr b := comma_mem_joinArr hlen
    have hd : digits8Test (.jarr b) = false := by
      have hall : (joinArr b).all isDig = false := by
        rw [List.all_eq_false]
        exact ⟨',', hcomma, by decide⟩
      simp [digits8Test, jsStr, hall]
    simp [billBad, hd] at h
  | some (.jobj g) =>
    exfalso
    have hd : digits8Test (.jobj g) = false := by
      simp only [digits8Test, jsStr]
      rfl
    simp [billBad, hd] at h

/-- If the loop collects nothing, every entry is an object whose bill field
is a string of exactly 8 digits. -/
theorem validateLoop_nil_elim : ∀ (items : List Jval) (i : Nat),
    validateLoop i items = some [] →
    ∀ v ∈ items, ∃ f s, v = .jobj f ∧ lookupO f billKey = some (.jstr s) ∧ good8 s = true := by
  intro items
  induction items with
  | nil => intro i _ v hv; cases hv
  | cons item rest ih =>
    intro i hloop v hv
    rw [show validateLoop i (item :: rest)
      = (match entryBill item with
        | none => none
        | some bn =>
          match validateLoop (i + 1) rest with
          | none => none
          | some acc =>
            if billBad bn then some (mkInvalid i (entryNarda item) bn :: acc)
            else some acc) from rfl] at hloop
    match hbn : entryBill item with
    | none => rw [hbn] at hloop; cases hloop
    | some bn =>
      rw [hbn] at hloop
      dsimp only at hloop
      match hrec : validateLoop (i + 1) rest with
      | none => rw [hrec] at hloop; cases hloop
      | some acc =>
        rw [hrec] at hloop
        dsimp only at hloop
        by_cases hbad : billBad bn = true
        · rw [if_pos hbad] at hloop
          simp at hloop
        · have hbad2 : billBad bn = false := by
            cases hb : billBad bn
            · rfl
            · exact absurd hb hbad
          rw [if_neg hbad] at hloop
          have hacc : acc = [] := by simpa using hloop
          rcases List.mem_cons.1 hv with hv1 | hv1
          · subst hv1
            obtain ⟨s, hbs, hg⟩ := billBad_false_elim hbad2
            subst hbs
            cases v with
            | jnull => simp [entryBill] at hbn
            | jbool bb => simp [entryBill] at hbn
            | jnum n => simp [entryBill] at hbn
            | jstr t => simp [entryBill] at hbn
            | jarr a => simp [entryBill] at hbn
            | jobj f =>
              refine ⟨f, s, rfl, ?_, hg⟩
              simpa [entryBill] using hbn
          · exact ih (i + 1) (hrec.trans (by rw [hacc])) v hv1

/-- The collected records for a list of abstract entries. -/
def expectedInvalids (entries : List (Option (List Char) × Option Jval)) :
    List InvalidItem :=
  (((List.enumFrom 0 entries).filter (fun p => !entryGood p.2)).map
    (fun p => mkInvalid p.1 p.2.2 (p.2.1.map .jstr)))

theorem validateBillNumbers_mkDoc (entries : List (Option (List Char) × Option Jval)) :
    validateBillNumbers (mkDoc entries)
      = some (if (expectedInvalids entries).length > 0 then
          ⟨false, "Invalid bill numbers found: ".data
            ++ joinSemi ((expectedInvalids entries).map renderInvalid),
            expectedInvalids entries⟩
        else ⟨true, [], []⟩) := by
  show (match validateLoop 0
      (jarrToList (listToJarr (entries.map (fun e => .jobj (entryObj e.1 e.2))))) with
    | none => none
    | some invs =>
      if invs.length > 0 then
        some (⟨false,
          "Invalid bill numbers found: ".data ++ joinSemi (invs.map renderInvalid),
          invs⟩ : VOutcome)
      else some (⟨true, [], []⟩ : VOutcome)) = _
  rw [jarrToList_listToJarr, validateLoop_map entries 0]
  dsimp only
  rw [apply_ite some]
  rfl

/-- C4: on a non-empty line-items list whose bill-number fields are
strings or absent, the validator accepts exactly when every field is an
8-digit string; otherwise it reports exactly the 0-based indices of the
failing entries, and the reason string is the semicolon-joined per-entry
template carrying the 1-based display index, the secondary (NARDA)
identifier, the quoted offending value and its length versus the
required 8. -/
theorem c4_theorem (entries : List (Option (List Char) × Option Jval))
    (_hne : entries ≠ []) :
    ∃ out, validateBillNumbers (mkDoc entries) = some out
      ∧ (out.valid = true ↔ entries.all entryGood = true)
      ∧ out.invalidItems.map (fun it => it.index)
          = ((List.enumFrom 0 entries).filter (fun p => !entryGood p.2)).map
              (fun p => p.1)
      ∧ (out.valid = false →
          out.reason = "Invalid bill numbers found: ".data
            ++ joinSemi (((List.enumFrom 0 entries).filter (fun p => !entryGood p.2)).map
                (fun p => renderInvalid (mkInvalid p.1 p.2.2 (p.2.1.map .jstr)))))
      ∧ (out.valid = true → out.invalidItems = []) := by
  refine ⟨_, validateBillNumbers_mkDoc entries, ?_, ?_, ?_, ?_⟩
  · by_cases hE : expectedInvalids entries = []
    · rw [if_neg (by simp [hE])]
      have hall : entries.all entryGood = true := by
        rw [← filter_bad_nil_iff entries 0]
        simp only [expectedInvalids] at hE
        exact List.map_eq_nil_iff.1 hE
      simp [hall]
    · rw [if_pos (by
        cases hc : expectedInvalids entries
        · exact absurd hc hE
        · simp [hc])]
      have hnotall : entries.all entryGood ≠ true := by
        intro hall
        exact hE (by
          simp only [expectedInvalids]
          rw [(filter_bad_nil_iff entries 0).2 hall]
          rfl)
      simp [hnotall]
  · by_cases hE : expectedInvalids entries = []
    · rw [if_neg (by simp [hE])]
      have hfil : ((List.enumFrom 0 entries).filter (fun p => !entryGood p.2)) = [] := by
        simp only [expectedInvalids] at hE
        exact List.map_eq_nil_iff.1 hE
      simp [hfil]
    · rw [if_pos (by
        cases hc : expectedInvalids entries
        · exact absurd hc hE
        · simp [hc])]
      simp only [expectedInvalids, List.map_map]
      rfl
  · by_cases hE : expectedInvalids entries = []
    · rw [if_neg (by simp [hE])]
      intro hfalse
      cases hfalse
    · rw [if_pos (by
        cases hc : expectedInvalids entries
        · exact absurd hc hE
        · simp [hc])]
      intro _
      simp only [expectedInvalids, List.map_map]
      rfl
  · by_cases hE : expectedInvalids entries = []
    · rw [if_neg (by simp [hE])]
      intro _
      rfl
    · rw [if_pos (by
        cases hc : expectedInvalids entries
        · exact absurd hc hE
        · simp [hc])]
      intro htrue
      cases htrue

/-- C10: the validator flags any line item whose bill-number field holds a
non-string value (every integer field fails the `.length !== 8` check even
when its decimal rendering has 8 digits), and a `valid = true` outcome on
an object with a line-items array forces every entry's bill-number field
to be a string of exactly 8 ASCII digits. -/
theorem c10_theorem :
    (∀ i : Int, billBad (some (.jnum i)) = true)
    ∧ ∀ (fields : Jobj) (a : Jarr) (out : VOutcome),
        lookupO fields lineItemsKey = some (.jarr a) →
        validateBillNumbers (.jobj fields) = some out →
        out.valid = true →
        ∀ v ∈ jarrToList a, ∃ f s, v = .jobj f
          ∧ lookupO f billKey = some (.jstr s)
          ∧ s.length = 8 ∧ s.all isDig = true := by
  constructor
  · intro i
    simp [billBad, jsLenProp, strictNe8]
  · intro fields a out hli hval hvalid v hv
    have hstep : validateBillNumbers (.jobj fields)
        = (if !(optTruthy (lookupO fields lineItemsKey)) then some ⟨true, [], []⟩
          else
            match lookupO fields lineItemsKey with
            | some (.jarr b) =>
              (match validateLoop 0 (jarrToList b) with
              | none => none
              | some invs =>
                if invs.length > 0 then
                  some ⟨false,
                    "Invalid bill numbers found: ".data
                      ++ joinSemi (invs.map renderInvalid), invs⟩
                else some ⟨true, [], []⟩)
            | _ => some ⟨true, [], []⟩) := rfl
    rw [hstep, hli] at hval
    rw [if_neg (by simp [optTruthy, jsTruthy])] at hval
    dsimp only at hval
    match hloop : validateLoop 0 (jarrToList a) with
    | none => rw [hloop] at hval; cases hval
    | some invs =>
      rw [hloop] at hval
      dsimp only at hval
      by_cases hlen : invs.length > 0
      · rw [if_pos hlen] at hval
        have : out.valid = false := by
          cases hval
          rfl
        rw [this] at hvalid
        cases hvalid
      · rw [if_neg hlen] at hval
        have hinv : invs = [] := by
          cases invs
          · rfl
          · exact absurd (by simp) hlen
        obtain ⟨f, s, hvf, hlk, hg⟩ :=
          validateLoop_nil_elim (jarrToList a) 0 (by rw [hloop, hinv]) v hv
        refine ⟨f, s, hvf, hlk, ?_, ?_⟩
        · have := hg
          simp [good8] at this
          exact this.1
        · have := hg
          simp [good8] at this
          simpa [List.all_eq_true] using this.2

/-- Outcome of one `anthropic.messages.create` call: the promise rejects
with an error message, or resolves with the response text. -/
inductive ApiOutcome where
  | reject : List Char → ApiOutcome
  | resolve : List Char → ApiOutcome
deriving DecidableEq

/-- The shape of `processPdfWithClaude`'s return value (the fields the
pipeline reads). -/
structure ClaudeResult where
  success : Bool
  analysis : List Char
  error : List Char
deriving DecidableEq

/-- `processPdfWithClaude`: the whole API call sits in a `try` whose
`catch` converts any rejection into a `success: false` result carrying the
error message — the function itself never throws. -/
def processPdfWithClaude : ApiOutcome → ClaudeResult
  | .resolve a => ⟨true, a, []⟩
  | .reject m => ⟨false, [], m⟩

/-- The environment one item runs against: the outcome of each successive
API call (indexed by a per-item call counter), and whether the local-disk
helpers (`savePdf`, `saveResult`, which await `fs` operations and can
reject) throw on a given attempt.  `uploadToNetSuite` catches internally
and never throws, so it needs no error entry. -/
structure Env where
  api : Nat → ApiOutcome
  savePdfErr : Nat → Option (List Char)
  saveResultErr : Nat → Option (List Char)

/-- What one `saveResult` call persisted for the item. -/
structure SaveRecord where
  success : Bool
  analysis : List Char
  extractedData : Jval
deriving DecidableEq

/-- The item pipeline's structured result value. -/
structure ItemResult where
  success : Bool
  error : Option (List Char)
deriving DecidableEq

/-- Full observable trace of one item: prompts sent to the oracle in
order, backoff sleeps in seconds, persisted records, uploads, and the
returned result. -/
structure ItemRun where
  calls : List (List Char)
  sleeps : List Nat
  saved : List SaveRecord
  uploaded : List Jval
  result : ItemResult
deriving DecidableEq

/-- `const RETRY_ATTEMPTS = 3`. -/
def RETRY_ATTEMPTS : Nat := 3

/-- The substring the rate-limit check looks for. -/
def rateLimitToken : List Char := "rate_limit_error".data

/-- The fixed first part of the enhanced validation-retry prompt. -/
def retryPreamble : List Char :=
  "CRITICAL: Previous extraction had invalid bill numbers.\n\n".data

/-- The fixed middle part of the enhanced prompt, between the diagnostic
and the original extraction instructions. -/
def retryTail : List Char :=
  ("\n\nPlease re-analyze this PDF and extract EXACTLY 8-digit bill numbers for each line item.\nRemember: Bill numbers are embedded in the Description column (look for N or W followed by 8 digits).\nIf the number spans multiple lines, concatenate to get exactly 8 digits total.\n\nAll line items MUST have valid 8-digit original bill numbers.\n\n").data

/-- The enhanced prompt: fixed preamble, diagnostic, fixed instructions,
then the output of `createExtractionPrompt(filename)`. -/
def retryPrompt (reason : List Char) (cepOut : List Char) : List Char :=
  retryPreamble ++ reason ++ retryTail ++ cepOut

/-- Pipeline context: the base prompt `processPdfWithClaude` uses, the
filename, and `createExtractionPrompt` if it were defined.  The shipped
file defines no such function, so the faithful context carries `none` and
the reference at the retry-prompt construction site raises a
`ReferenceError` (swallowed by the surrounding parse `catch`). -/
structure PipeCtx where
  basePrompt : List Char
  filename : List Char
  cep : Option (List Char → List Char)

/-- Modelled from the spec: `createExtractionPrompt` is called by the
validation-retry path of email-poller.js but defined nowhere in the
repository; §4.3 says the enhanced prompt ends with "the original
extraction instructions", so the spec-modelled builder returns the item's
base extraction prompt. -/
def createExtractionPromptSpec (basePrompt : List Char) : List Char → List Char :=
  fun _ => basePrompt

/-- The shipped context (no `createExtractionPrompt` in scope). -/
def ctxShipped (bp fn : List Char) : PipeCtx := ⟨bp, fn, none⟩

/-- The context under the spec-modelled `createExtractionPrompt`. -/
def ctxSpec (bp fn : List Char) : PipeCtx := ⟨bp, fn, some (createExtractionPromptSpec bp)⟩

/-- Result of the inner JSON-parse/validate `try` block: the final value
of the `extractedData` variable (`jnull` is JS `null`), the extra oracle
calls made (the validation-retry call, when reached), and how many API
calls were consumed beyond the first. -/
structure ParseOut where
  data : Jval
  extraCalls : List (List Char)
  consumed : Nat
deriving DecidableEq

/-- The inner `try { parse; validate; maybe retry } catch (e) { log }`
block of `processSinglePdf`.  Any throw inside lands in the logging
`catch`, so the block always completes with whatever `extractedData` last
held. -/
def parseValidate (env : Env) (ctx : PipeCtx) (rc k : Nat)
    (analysis : List Char) : ParseOut :=
  match inlineParse analysis with
  | none => ⟨.jnull, [], 0⟩
  | some v =>
    match v with
    | .jnull => ⟨.jnull, [], 0⟩
    | _ =>
      match validateBillNumbers v with
      | none => ⟨v, [], 0⟩
      | some vr =>
        if !vr.valid && rc == 0 then
          match ctx.cep with
          | none => ⟨v, [], 0⟩
          | some cepF =>
            match processPdfWithClaude (env.api (k + 1)) with
            | rRes =>
              if rRes.success then
                match inlineParse rRes.analysis with
                | none => ⟨v, [retryPrompt vr.reason (cepF ctx.filename)], 1⟩
                | some rv =>
                  match validateBillNumbers rv with
                  | none => ⟨v, [retryPrompt vr.reason (cepF ctx.filename)], 1⟩
                  | some rvr =>
                    if rvr.valid then
                      ⟨rv, [retryPrompt vr.reason (cepF ctx.filename)], 1⟩
                    else ⟨v, [retryPrompt vr.reason (cepF ctx.filename)], 1⟩
              else ⟨v, [retryPrompt vr.reason (cepF ctx.filename)], 1⟩
        else ⟨v, [], 0⟩

/-- One pass through the `try` body of `processSinglePdf`: the trace it
produced and either a returned result or a thrown message. -/
structure AttemptOut where
  calls : List (List Char)
  saved : List SaveRecord
  uploaded : List Jval
  consumed : Nat
  outcome : Except (List Char) ItemResult

/-- The `try` body: savePdf, the oracle call, parse/validate/retry,
saveResult, conditional upload; `Except.error` models a throw escaping to
the outer catch. -/
def attemptBody (env : Env) (ctx : PipeCtx) (rc k : Nat) : AttemptOut :=
  match env.savePdfErr rc with
  | some m => ⟨[], [], [], 0, .error m⟩
  | none =>
    match processPdfWithClaude (env.api k) with
    | result =>
      if result.success then
        match parseValidate env ctx rc k result.analysis with
        | pv =>
          match env.saveResultErr rc with
          | some m => ⟨ctx.basePrompt :: pv.extraCalls, [], [], 1 + pv.consumed, .error m⟩
          | none =>
            if jsTruthy pv.data then
              ⟨ctx.basePrompt :: pv.extraCalls, [⟨true, result.analysis, pv.data⟩],
                [pv.data], 1 + pv.consumed, .ok ⟨true, none⟩⟩
            else
              ⟨ctx.basePrompt :: pv.extraCalls, [⟨true, result.analysis, pv.data⟩],
                [], 1 + pv.consumed, .ok ⟨true, none⟩⟩
      else ⟨[ctx.basePrompt], [], [], 1, .ok ⟨false, some result.error⟩⟩

/-- `processSinglePdf` with explicit fuel equal to the remaining attempt
budget; the recursion is guarded by `retryCount < RETRY_ATTEMPTS`, so
`RETRY_ATTEMPTS + 1 - rc` fuel always suffices and the fuel-exhausted row
is unreachable through `processSinglePdf`. -/
def processSinglePdfAux (env : Env) (ctx : PipeCtx) : Nat → Nat → Nat → ItemRun
  | 0, _, _ => ⟨[], [], [], [], ⟨false, none⟩⟩
  | fuel + 1, rc, k =>
    match attemptBody env ctx rc k with
    | a =>
      match a.outcome with
      | .ok r => ⟨a.calls, [], a.saved, a.uploaded, r⟩
      | .error m =>
        if containsSub rateLimitToken m && decide (rc < RETRY_ATTEMPTS) then
          match processSinglePdfAux env ctx fuel (rc + 1) (k + a.consumed) with
          | r2 =>
            ⟨a.calls ++ r2.calls, (2 ^ rc * 10) :: r2.sleeps, a.saved ++ r2.saved,
              a.uploaded ++ r2.uploaded, r2.result⟩
        else ⟨a.calls, [], a.saved, a.uploaded, ⟨false, some m⟩⟩

/-- The `processSinglePdf` closure of email-poller.js. -/
def processSinglePdf (env : Env) (ctx : PipeCtx) (rc k : Nat) : ItemRun :=
  processSinglePdfAux env ctx (RETRY_ATTEMPTS + 1 - rc) rc k

/-- An environment whose local-disk helpers never throw. -/
def noThrowEnv (api : Nat → ApiOutcome) : Env :=
  ⟨api, fun _ => none, fun _ => none⟩

/-- `const BATCH_SIZE = 3`. -/
def BATCH_SIZE : Nat := 3

/-- `const BATCH_DELAY_MS = 5000`. -/
def BATCH_DELAY_MS : Nat := 5000

/-- Observable scheduler events: an item's pipeline starting, an item
reaching a terminal state (with its success flag), and the inter-group
pause. -/
inductive Ev where
  | start : Nat → Ev
  | finish : Nat → Bool → Ev
  | delay : Nat → Ev
deriving DecidableEq

/-- The consecutive `slice(i, i + BATCH_SIZE)` groups of the batch loop. -/
def chunks3 {α : Type} : List α → List (List α)
  | [] => []
  | [a] => [[a]]
  | [a, b] => [[a, b]]
  | a :: b :: c :: rest => [a, b, c] :: chunks3 rest

/-- Events of one group starting at item index `i0`: `Promise.allSettled`
starts every item of the group, the group completes only when every item
reached a terminal state, and a pause follows unless the group is last
(`i + BATCH_SIZE < length`). -/
def batchEvents (i0 : Nat) (g : List Bool) (isLast : Bool) : List Ev :=
  (g.enumFrom i0).map (fun p => .start p.1)
    ++ (g.enumFrom i0).map (fun p => .finish p.1 p.2)
    ++ (if isLast then [] else [.delay BATCH_DELAY_MS])

/-- The loop over groups. -/
def scheduleAux : Nat → List (List Bool) → List Ev
  | _, [] => []
  | i0, g :: rest =>
    batchEvents i0 g (match rest with | [] => true | _ => false)
      ++ scheduleAux (i0 + g.length) rest

/-- The whole trace of the batch loop over the items' success flags. -/
def schedule (results : List Bool) : List Ev :=
  scheduleAux 0 (chunks3 results)

/-- The `processedCount` counter after a trace prefix: one increment per
terminal state. -/
def processedCount (tr : List Ev) : Nat :=
  tr.countP (fun e => match e with | .finish _ _ => true | _ => false)

/-- Number of inter-group pauses in a trace. -/
def delayCount (tr : List Ev) : Nat :=
  tr.countP (fun e => match e with | .delay _ => true | _ => false)

/-- The whole poll-cycle batch processing: run every item's pipeline,
drive the scheduler over their outcomes. -/
def runBatch (envs : Nat → Env) (ctx : PipeCtx) (N : Nat) : List Ev :=
  schedule ((List.range N).map (fun i => (processSinglePdf (envs i) ctx 0 0).result.success))

/-- One NetSuite AP Assist vendor configuration row as returned by the
config endpoint. -/
structure NsConfig where
  displayName : List Char
  emailFrom : List Char
  emailSubjectContains : List Char
  pdfFolderId : List Char
  jsonFolderId : List Char
  claudePrompt : List Char
  id : List Char
  vendor : List Char
  transactionType : List Char
deriving DecidableEq

/-- One in-memory EMAIL_PROCESSORS entry. -/
structure Processor where
  name : List Char
  enabled : Bool
  fromSub : List Char
  subjectSub : List Char
  pdfFolderId : List Char
  jsonFolderId : List Char
  prompt : List Char
  configId : List Char
  vendor : List Char
  transactionType : List Char
deriving DecidableEq

/-- Characters the display-name sanitizer keeps. -/
def okCh (c : Char) : Bool := ('a' ≤ c && c ≤ 'z') || isDig c

/-- `replace(/[^a-z0-9]+/g, '_')`: each maximal run of other characters
becomes a single underscore (the flag records being inside such a run). -/
def sanitizeAux : Bool → List Char → List Char
  | _, [] => []
  | inRun, c :: t =>
    if okCh c then c :: sanitizeAux false t
    else if inRun then sanitizeAux true t
    else '_' :: sanitizeAux true t

/-- `config.displayName.toLowerCase().replace(/[^a-z0-9]+/g, '_')`. -/
def sanitizeName (l : List Char) : List Char :=
  sanitizeAux false (l.map Char.toLower)

/-- The map from a NetSuite config row to an EMAIL_PROCESSORS entry. -/
def convertConfig (c : NsConfig) : Processor :=
  { name := sanitizeName c.displayName
    enabled := true
    fromSub := c.emailFrom
    subjectSub := c.emailSubjectContains
    pdfFolderId := c.pdfFolderId
    jsonFolderId := c.jsonFolderId
    prompt := if c.claudePrompt = [] then "marcone".data else c.claudePrompt
    configId := c.id
    vendor := c.vendor
    transactionType := c.transactionType }

/-- Outcome of the refresh request: the HTTP call threw (network or auth
failure), or a response arrived with a `success` flag and an optional
`configs` array. -/
inductive RefreshOutcome where
  | fail : List Char → RefreshOutcome
  | ok : Bool → Option (List NsConfig) → RefreshOutcome

/-- `fetchNetSuiteConfigs`: replace the processor list wholesale when the
response is successful and carries at least one config; leave it untouched
on an empty list, a malformed or unsuccessful response, or a transport
failure (the whole body is wrapped in `try/catch`, so nothing escapes the
timer callback). -/
def fetchNetSuiteConfigs (prev : List Processor) (resp : RefreshOutcome) :
    List Processor :=
  match resp with
  | .fail _ => prev
  | .ok success configs =>
    match configs with
    | some cs =>
      if success && decide (cs.length > 0) then cs.map convertConfig else prev
    | none => prev

/-- The (sender text, subject) pair the matcher reads off a parsed email. -/
structure EmailMeta where
  fromText : List Char
  subject : List Char

/-- `toLowerCase`. -/
def jsToLower (l : List Char) : List Char := l.map Char.toLower

/-- `matchEmailProcessor`: first enabled processor whose sender substring
(case-insensitively) and subject substring both match. -/
def matchEmailProcessor (procs : List Processor) (email : EmailMeta) :
    Option Processor :=
  match procs with
  | [] => none
  | p :: rest =>
    if !p.enabled then matchEmailProcessor rest email
    else if containsSub (jsToLower p.fromSub) (jsToLower email.fromText)
        && containsSub p.subjectSub email.subject then some p
    else matchEmailProcessor rest email

/-- Total number of items in a chunk list. -/
def sumLens (gs : List (List Bool)) : Nat := (gs.map List.length).sum

theorem chunks3_join_fuel {α : Type} :
    ∀ (n : Nat) (l : List α), l.length ≤ n → (chunks3 l).flatten = l := by
  intro n
  induction n with
  | zero =>
    intro l h
    match l with
    | [] => rfl
    | a :: t => simp at h
  | succ n IH =>
    intro l h
    match l with
    | [] => rfl
    | [a] => rfl
    | [a, b] => rfl
    | a :: b :: c :: rest =>
      have hr : rest.length ≤ n := by simp at h; omega
      simp [chunks3, IH rest hr]

theorem chunks3_join {α : Type} (l : List α) : (chunks3 l).flatten = l :=
  chunks3_join_fuel l.length l le_rfl

theorem chunks3_sizes_fuel {α : Type} :
    ∀ (n : Nat) (l : List α), l.length ≤ n →
      ∀ g ∈ chunks3 l, 0 < g.length ∧ g.length ≤ 3 := by
  intro n
  induction n with
  | zero =>
    intro l h g hg
    match l with
    | [] => cases hg
    | a :: t => simp at h
  | succ n IH =>
    intro l h g hg
    match l with
    | [] => cases hg
    | [a] =>
      rcases List.mem_cons.1 hg with hg1 | hg1
      · subst hg1; simp
      · cases hg1
    | [a, b] =>
      rcases List.mem_cons.1 hg with hg1 | hg1
      · subst hg1; simp
      · cases hg1
    | a :: b :: c :: rest =>
      rcases List.mem_cons.1 hg with hg1 | hg1
      · subst hg1; simp
      · exact IH rest (by simp at h; omega) g hg1

theorem chunks3_sizes {α : Type} (l : List α) :
    ∀ g ∈ chunks3 l, 0 < g.length ∧ g.length ≤ 3 :=
  chunks3_sizes_fuel l.length l le_rfl

theorem chunks3_nil_iff {α : Type} (l : List α) : chunks3 l = [] ↔ l = [] := by
  match l with
  | [] => simp [chunks3]
  | [a] => simp [chunks3]
  | [a, b] => simp [chunks3]
  | a :: b :: c :: rest => simp [chunks3]

theorem chunks3_dropLast_fuel {α : Type} :
    ∀ (n : Nat) (l : List α), l.length ≤ n →
      ∀ g ∈ (chunks3 l).dropLast, g.length = 3 := by
  intro n
  induction n with
  | zero =>
    intro l h g hg
    match l with
    | [] => cases hg
    | a :: t => simp at h
  | succ n IH =>
    intro l h g hg
    match l with
    | [] => cases hg
    | [a] => cases hg
    | [a, b] => cases hg
    | a :: b :: c :: rest =>
      rw [show chunks3 (a :: b :: c :: rest) = [a, b, c] :: chunks3 rest from rfl] at hg
      by_cases hr : chunks3 rest = []
      · rw [hr] at hg; cases hg
      · obtain ⟨g0, gs, hgs⟩ := List.exists_cons_of_ne_nil hr
        rw [hgs] at hg
        rw [show ([a, b, c] :: g0 :: gs).dropLast = [a, b, c] :: (g0 :: gs).dropLast
          from rfl] at hg
        rcases List.mem_cons.1 hg with hg1 | hg1
        · subst hg1; rfl
        · have := IH rest (by simp at h; omega) g
          rw [hgs] at this
          exact this hg1

theorem chunks3_dropLast {α : Type} (l : List α) :
    ∀ g ∈ (chunks3 l).dropLast, g.length = 3 :=
  chunks3_dropLast_fuel l.length l le_rfl

theorem mem_enumFrom_exists :
    ∀ (g : List Bool) (i0 i : Nat), i0 ≤ i → i < i0 + g.length →
      ∃ b, (i, b) ∈ List.enumFrom i0 g := by
  intro g
  induction g with
  | nil => intro i0 i h1 h2; simp at h2; omega
  | cons b t ih =>
    intro i0 i h1 h2
    by_cases he : i = i0
    · subst he
      exact ⟨b, by simp [List.enumFrom]⟩
    · obtain ⟨b2, hb2⟩ := ih (i0 + 1) i (by omega) (by simp at h2 ⊢; omega)
      exact ⟨b2, by simp [List.enumFrom]; right; exact hb2⟩

theorem start_mem_batchEvents {i0 i : Nat} {g : List Bool} {isLast : Bool}
    (h1 : i0 ≤ i) (h2 : i < i0 + g.length) :
    Ev.start i ∈ batchEvents i0 g isLast := by
  obtain ⟨b, hb⟩ := mem_enumFrom_exists g i0 i h1 h2
  exact List.mem_append_left _ (List.mem_append_left _
    (List.mem_map.2 ⟨(i, b), hb, rfl⟩))

theorem finish_mem_batchEvents {i0 i : Nat} {g : List Bool} {isLast : Bool}
    (h1 : i0 ≤ i) (h2 : i < i0 + g.length) :
    ∃ b, Ev.finish i b ∈ batchEvents i0 g isLast := by
  obtain ⟨b, hb⟩ := mem_enumFrom_exists g i0 i h1 h2
  exact ⟨b, List.mem_append_left _ (List.mem_append_right _
    (List.mem_map.2 ⟨(i, b), hb, rfl⟩))⟩

theorem enumFrom_fst_bound :
    ∀ (g : List Bool) (i0 : Nat) (p : Nat × Bool), p ∈ List.enumFrom i0 g →
      i0 ≤ p.1 ∧ p.1 < i0 + g.length := by
  intro g
  induction g with
  | nil => intro i0 p hp; cases hp
  | cons b t ih =>
    intro i0 p hp
    rw [show List.enumFrom i0 (b :: t) = (i0, b) :: List.enumFrom (i0 + 1) t
      from rfl] at hp
    rcases List.mem_cons.1 hp with hp1 | hp1
    · subst hp1; simp
    · have := ih (i0 + 1) p hp1
      simp only [List.length_cons]
      omega

theorem start_batchEvents_bound {i0 i : Nat} {g : List Bool} {isLast : Bool}
    (h : Ev.start i ∈ batchEvents i0 g isLast) : i0 ≤ i ∧ i < i0 + g.length := by
  unfold batchEvents at h
  rcases List.mem_append.1 h with h1 | h1
  · rcases List.mem_append.1 h1 with h2 | h2
    · obtain ⟨p, hp, hpe⟩ := List.mem_map.1 h2
      have := enumFrom_fst_bound g i0 p hp
      cases hpe
      exact this
    · obtain ⟨p, hp, hpe⟩ := List.mem_map.1 h2
      cases hpe
  · cases isLast
    · simp at h1
    · simp at h1

theorem scheduleAux_cons (i0 : Nat) (g : List Bool) (rest : List (List Bool)) :
    scheduleAux i0 (g :: rest)
      = batchEvents i0 g (match rest with | [] => true | _ => false)
        ++ scheduleAux (i0 + g.length) rest := by
  cases rest <;> rfl

theorem scheduleAux_mem :
    ∀ (gs : List (List Bool)) (i0 i : Nat), i0 ≤ i → i < i0 + sumLens gs →
      Ev.start i ∈ scheduleAux i0 gs ∧ ∃ b, Ev.finish i b ∈ scheduleAux i0 gs := by
  intro gs
  induction gs with
  | nil => intro i0 i h1 h2; simp [sumLens] at h2; omega
  | cons g rest ih =>
    intro i0 i h1 h2
    rw [scheduleAux_cons]
    by_cases hlt : i < i0 + g.length
    · exact ⟨List.mem_append_left _ (start_mem_batchEvents h1 hlt),
        (finish_mem_batchEvents h1 hlt).elim
          (fun b hb => ⟨b, List.mem_append_left _ hb⟩)⟩
    · have hsum : i < i0 + g.length + sumLens rest := by
        have : sumLens (g :: rest) = g.length + sumLens rest := by
          simp [sumLens]
        omega
      obtain ⟨hs, hf⟩ := ih (i0 + g.length) i (by omega) hsum
      exact ⟨List.mem_append_right _ hs,
        hf.elim (fun b hb => ⟨b, List.mem_append_right _ hb⟩)⟩

theorem scheduleAux_order :
    ∀ (k : Nat) (gs : List (List Bool)) (i0 : Nat), k + 1 < gs.length →
      (∀ g ∈ gs.dropLast, g.length = 3) →
      ∃ pre post, scheduleAux i0 gs = pre ++ post
        ∧ (∀ i, i0 ≤ i → i < i0 + 3 * (k + 1) → ∃ b, Ev.finish i b ∈ pre)
        ∧ (∀ i, Ev.start i ∈ pre → i < i0 + 3 * (k + 1)) := by
  intro k
  induction k with
  | zero =>
    intro gs i0 hlen hdrop
    match gs, hlen with
    | g :: g2 :: rest, _ =>
      have hg3 : g.length = 3 := by
        apply hdrop
        rw [show (g :: g2 :: rest).dropLast = g :: (g2 :: rest).dropLast from rfl]
        exact List.mem_cons_self _ _
      refine ⟨batchEvents i0 g false, scheduleAux (i0 + g.length) (g2 :: rest),
        by rw [scheduleAux_cons], ?_, ?_⟩
      · intro i hi1 hi2
        exact finish_mem_batchEvents hi1 (by omega)
      · intro i hi
        have := start_batchEvents_bound hi
        omega
  | succ k IH =>
    intro gs i0 hlen hdrop
    match gs, hlen with
    | g :: g2 :: rest, hlen2 =>
      have hg3 : g.length = 3 := by
        apply hdrop
        rw [show (g :: g2 :: rest).dropLast = g :: (g2 :: rest).dropLast from rfl]
        exact List.mem_cons_self _ _
      have hdrop2 : ∀ h ∈ (g2 :: rest).dropLast, h.length = 3 := by
        intro h hh
        apply hdrop
        rw [show (g :: g2 :: rest).dropLast = g :: (g2 :: rest).dropLast from rfl]
        exact List.mem_cons_of_mem _ hh
      obtain ⟨pre2, post2, heq, hfin, hstart⟩ :=
        IH (g2 :: rest) (i0 + g.length) (by simp at hlen2 ⊢; omega) hdrop2
      refine ⟨batchEvents i0 g false ++ pre2, post2, ?_, ?_, ?_⟩
      · rw [scheduleAux_cons, heq, List.append_assoc]
      · intro i hi1 hi2
        by_cases hlt : i < i0 + g.length
        · obtain ⟨b, hb⟩ := @finish_mem_batchEvents i0 i g false hi1 hlt
          exact ⟨b, List.mem_append_left _ hb⟩
        · obtain ⟨b, hb⟩ := hfin i (by omega) (by omega)
          exact ⟨b, List.mem_append_right _ hb⟩
      · intro i hi
        rcases List.mem_append.1 hi with hi1 | hi1
        · have := start_batchEvents_bound hi1
          omega
        · have := hstart i hi1
          omega

theorem countP_start_map_zero (l : List (Nat × Bool)) :
    (l.map (fun p => Ev.start p.1)).countP
      (fun e => match e with | .finish _ _ => true | _ => false) = 0 := by
  induction l with
  | nil => rfl
  | cons p t ih => simp [List.countP_cons, ih]

theorem countP_finish_map_len (l : List (Nat × Bool)) :
    (l.map (fun p => Ev.finish p.1 p.2)).countP
      (fun e => match e with | .finish _ _ => true | _ => false) = l.length := by
  induction l with
  | nil => rfl
  | cons p t ih => simp [List.countP_cons, ih]

theorem processedCount_append (a b : List Ev) :
    processedCount (a ++ b) = processedCount a + processedCount b :=
  List.countP_append _ _ _

theorem delayCount_append (a b : List Ev) :
    delayCount (a ++ b) = delayCount a + delayCount b :=
  List.countP_append _ _ _

theorem processedCount_batchEvents (i0 : Nat) (g : List Bool) (isLast : Bool) :
    processedCount (batchEvents i0 g isLast) = g.length := by
  unfold batchEvents
  rw [processedCount_append, processedCount_append]
  unfold processedCount
  rw [countP_start_map_zero, countP_finish_map_len]
  cases isLast <;> simp [List.countP_cons, List.enumFrom_length]

theorem processedCount_scheduleAux :
    ∀ (gs : List (List Bool)) (i0 : Nat),
      processedCount (scheduleAux i0 gs) = sumLens gs := by
  intro gs
  induction gs with
  | nil => intro i0; rfl
  | cons g rest ih =>
    intro i0
    rw [scheduleAux_cons, processedCount_append, processedCount_batchEvents, ih]
    simp [sumLens]

theorem processedCount_schedule (l : List Bool) :
    processedCount (schedule l) = l.length := by
  unfold schedule
  rw [processedCount_scheduleAux]
  have hj := chunks3_join l
  calc sumLens (chunks3 l) = (chunks3 l).flatten.length := by
        rw [List.length_flatten]; rfl
    _ = l.length := by rw [hj]

theorem processedCount_take_mono (tr : List Ev) (n : Nat) :
    processedCount (tr.take n) ≤ processedCount (tr.take (n + 1)) := by
  unfold processedCount
  apply List.Sublist.countP_le
  have h1 : List.Sublist ((tr.take (n + 1)).take n) (tr.take (n + 1)) :=
    List.take_sublist _ _
  rwa [List.take_take, min_eq_left (by omega)] at h1

theorem delayCount_batchEvents (i0 : Nat) (g : List Bool) (isLast : Bool) :
    delayCount (batchEvents i0 g isLast) = if isLast then 0 else 1 := by
  unfold batchEvents
  rw [delayCount_append, delayCount_append]
  have h1 : delayCount (List.map (fun p => Ev.start p.1) (List.enumFrom i0 g)) = 0 := by
    unfold delayCount
    induction List.enumFrom i0 g with
    | nil => rfl
    | cons p t ih => simp [List.countP_cons, ih]
  have h2 : delayCount
      (List.map (fun p => Ev.finish p.1 p.2) (List.enumFrom i0 g)) = 0 := by
    unfold delayCount
    induction List.enumFrom i0 g with
    | nil => rfl
    | cons p t ih => simp [List.countP_cons, ih]
  rw [h1, h2]
  cases isLast <;> simp [delayCount, List.countP_cons]

theorem delayCount_scheduleAux :
    ∀ (gs : List (List Bool)) (i0 : Nat), gs ≠ [] →
      delayCount (scheduleAux i0 gs) = gs.length - 1 := by
  intro gs
  induction gs with
  | nil => intro i0 h; exact absurd rfl h
  | cons g rest ih =>
    intro i0 _
    rw [scheduleAux_cons, delayCount_append, delayCount_batchEvents]
    cases rest with
    | nil => simp [scheduleAux, delayCount]
    | cons g2 rest2 =>
      rw [ih (i0 + g.length) (by simp)]
      simp
      omega

theorem delay_mem_scheduleAux :
    ∀ (gs : List (List Bool)) (i0 d : Nat), Ev.delay d ∈ scheduleAux i0 gs →
      d = BATCH_DELAY_MS := by
  intro gs
  induction gs with
  | nil => intro i0 d h; cases h
  | cons g rest ih =>
    intro i0 d h
    rw [scheduleAux_cons] at h
    rcases List.mem_append.1 h with h1 | h1
    · unfold batchEvents at h1
      rcases List.mem_append.1 h1 with h2 | h2
      · rcases List.mem_append.1 h2 with h3 | h3
        · obtain ⟨p, _, hpe⟩ := List.mem_map.1 h3
          cases hpe
        · obtain ⟨p, _, hpe⟩ := List.mem_map.1 h3
          cases hpe
      · match rest, h2 with
        | [], h2 => cases h2
        | g2 :: r2, h2 =>
          simp at h2
          exact h2
    · exact ih _ _ h1

theorem parseValidate_none_cep (env : Env) (bp fn : List Char) (rc k : Nat)
    (a : List Char) :
    (parseValidate env (ctxShipped bp fn) rc k a).extraCalls = []
      ∧ (parseValidate env (ctxShipped bp fn) rc k a).consumed = 0 := by
  unfold parseValidate ctxShipped
  constructor
  · repeat' split
    all_goals first | rfl | simp_all
  · repeat' split
    all_goals first | rfl | simp_all

theorem parseValidate_extra_le (env : Env) (ctx : PipeCtx) (rc k : Nat)
    (a : List Char) :
    (parseValidate env ctx rc k a).extraCalls.length ≤ 1
      ∧ (parseValidate env ctx rc k a).consumed ≤ 1 := by
  unfold parseValidate
  constructor
  · repeat' split
    all_goals simp
    all_goals repeat' split
    all_goals simp
  · repeat' split
    all_goals simp
    all_goals repeat' split
    all_goals simp

theorem attemptBody_noThrow_ok (api : Nat → ApiOutcome) (ctx : PipeCtx)
    (rc k : Nat) :
    ∃ r, (attemptBody (noThrowEnv api) ctx rc k).outcome = .ok r := by
  unfold attemptBody noThrowEnv
  dsimp only
  repeat' split
  all_goals exact ⟨_, rfl⟩

theorem attemptBody_calls_le (env : Env) (ctx : PipeCtx) (rc k : Nat) :
    (attemptBody env ctx rc k).calls.length ≤ 2 := by
  unfold attemptBody
  have h := (parseValidate_extra_le env ctx rc k
    (processPdfWithClaude (env.api k)).analysis).1
  dsimp only
  repeat' split
  all_goals simp
  all_goals omega

theorem processSinglePdf_noThrow (api : Nat → ApiOutcome) (ctx : PipeCtx)
    (rc k : Nat) :
    (processSinglePdf (noThrowEnv api) ctx rc k).sleeps = []
      ∧ (processSinglePdf (noThrowEnv api) ctx rc k).calls.length ≤ 2 := by
  unfold processSinglePdf
  match hf : RETRY_ATTEMPTS + 1 - rc with
  | 0 => exact ⟨rfl, by simp [processSinglePdfAux]⟩
  | f + 1 =>
    obtain ⟨r, hr⟩ := attemptBody_noThrow_ok api ctx rc k
    rw [show processSinglePdfAux (noThrowEnv api) ctx (f + 1) rc k
      = (match (attemptBody (noThrowEnv api) ctx rc k).outcome with
        | .ok r => (⟨(attemptBody (noThrowEnv api) ctx rc k).calls, [],
            (attemptBody (noThrowEnv api) ctx rc k).saved,
            (attemptBody (noThrowEnv api) ctx rc k).uploaded, r⟩ : ItemRun)
        | .error m =>
          if containsSub rateLimitToken m && decide (rc < RETRY_ATTEMPTS) then
            match processSinglePdfAux (noThrowEnv api) ctx f (rc + 1)
                (k + (attemptBody (noThrowEnv api) ctx rc k).consumed) with
            | r2 =>
              ⟨(attemptBody (noThrowEnv api) ctx rc k).calls ++ r2.calls,
                (2 ^ rc * 10) :: r2.sleeps,
                (attemptBody (noThrowEnv api) ctx rc k).saved ++ r2.saved,
                (attemptBody (noThrowEnv api) ctx rc k).uploaded ++ r2.uploaded,
                r2.result⟩
          else ⟨(attemptBody (noThrowEnv api) ctx rc k).calls, [],
            (attemptBody (noThrowEnv api) ctx rc k).saved,
            (attemptBody (noThrowEnv api) ctx rc k).uploaded, ⟨false, some m⟩⟩)
      from rfl]
    rw [hr]
    exact ⟨rfl, attemptBody_calls_le _ ctx rc k⟩

theorem attemptBody_calls_shipped (env : Env) (bp fn : List Char) (rc k : Nat) :
    ∀ p ∈ (attemptBody env (ctxShipped bp fn) rc k).calls, p = bp := by
  have h := (parseValidate_none_cep env bp fn rc k
    (processPdfWithClaude (env.api k)).analysis).1
  unfold attemptBody
  repeat' split
  all_goals intro p hp
  all_goals simp_all [ctxShipped]
  all_goals repeat' split at hp
  all_goals simp_all

theorem processSinglePdfAux_calls_shipped (env : Env) (bp fn : List Char) :
    ∀ fuel rc k, ∀ p ∈ (processSinglePdfAux env (ctxShipped bp fn) fuel rc k).calls,
      p = bp := by
  intro fuel
  induction fuel with
  | zero =>
    intro rc k p hp
    simp [processSinglePdfAux] at hp
  | succ f ih =>
    intro rc k p hp
    have hb := attemptBody_calls_shipped env bp fn rc k
    rw [processSinglePdfAux] at hp
    cases ho : (attemptBody env (ctxShipped bp fn) rc k).outcome with
    | ok r =>
      rw [ho] at hp
      dsimp only at hp
      exact hb p hp
    | error m =>
      rw [ho] at hp
      dsimp only at hp
      split at hp
      · simp only [List.mem_append] at hp
        rcases hp with hp | hp
        · exact hb p hp
        · exact ih (rc + 1) (k + (attemptBody env (ctxShipped bp fn) rc k).consumed) p hp
      · exact hb p hp

theorem matchEmailProcessor_mem :
    ∀ (procs : List Processor) (email : EmailMeta) (p : Processor),
      matchEmailProcessor procs email = some p → p ∈ procs := by
  intro procs
  induction procs with
  | nil => intro email p h; cases h
  | cons q rest ih =>
    intro email p h
    rw [matchEmailProcessor] at h
    split at h
    · exact List.mem_cons_of_mem _ (ih email p h)
    · split at h
      · cases h
        exact List.mem_cons_self _ _
      · exact List.mem_cons_of_mem _ (ih email p h)

/-- C8: a successful refresh carrying at least one config replaces the
in-memory processor list wholesale (so the matcher afterwards can only
return a processor converted from the new response); a transport failure,
an unsuccessful or malformed response, or an empty config list leaves the
previous list unchanged. -/
theorem c8_theorem :
    (∀ (prev : List Processor) (cs : List NsConfig), cs ≠ [] →
        fetchNetSuiteConfigs prev (.ok true (some cs)) = cs.map convertConfig)
    ∧ (∀ (prev : List Processor) (m : List Char),
        fetchNetSuiteConfigs prev (.fail m) = prev)
    ∧ (∀ prev : List Processor,
        fetchNetSuiteConfigs prev (.ok true (some [])) = prev)
    ∧ (∀ (prev : List Processor) (cfgs : Option (List NsConfig)),
        fetchNetSuiteConfigs prev (.ok false cfgs) = prev)
    ∧ (∀ (prev : List Processor) (s : Bool),
        fetchNetSuiteConfigs prev (.ok s none) = prev)
    ∧ (∀ (prev : List Processor) (cs : List NsConfig) (email : EmailMeta)
        (p : Processor), cs ≠ [] →
        matchEmailProcessor (fetchNetSuiteConfigs prev (.ok true (some cs))) email
          = some p →
        p ∈ cs.map convertConfig) := by
  have hrepl : ∀ (prev : List Processor) (cs : List NsConfig), cs ≠ [] →
      fetchNetSuiteConfigs prev (.ok true (some cs)) = cs.map convertConfig := by
    intro prev cs hne
    cases cs with
    | nil => exact absurd rfl hne
    | cons c t => simp [fetchNetSuiteConfigs]
  refine ⟨hrepl, fun prev m => rfl, fun prev => rfl, ?_, ?_, ?_⟩
  · intro prev cfgs
    cases cfgs <;> simp [fetchNetSuiteConfigs]
  · intro prev s
    cases s <;> rfl
  · intro prev cs email p hne hm
    rw [hrepl prev cs hne] at hm
    exact matchEmailProcessor_mem _ email p hm

/-- A concrete config row for the C8 witness. -/
def c8cfg : NsConfig :=
  ⟨"Marcone Supply".data, "billing@marcone.com".data, "invoice".data,
    "101".data, "102".data, "extract the line items".data, "7".data,
    "Marcone".data, "vendorbill".data⟩

/-- The C8 witness instantiates the wholesale-replacement conjunct on a
one-row response. -/
theorem c8_witness :
    [c8cfg] ≠ ([] : List NsConfig)
    ∧ fetchNetSuiteConfigs [] (.ok true (some [c8cfg]))
        = ([c8cfg] : List NsConfig).map convertConfig :=
  ⟨by simp, c8_theorem.1 [] [c8cfg] (by simp)⟩

theorem sumLens_chunks3 (l : List Bool) : sumLens (chunks3 l) = l.length := by
  calc sumLens (chunks3 l) = (chunks3 l).flatten.length := by
        rw [List.length_flatten]; rfl
    _ = l.length := by rw [chunks3_join]

/-- C6: the batch loop cuts the items into consecutive groups of at most
three whose concatenation is the original order (all full groups except
possibly the last; for seven items the sizes are 3, 3, 1); for every k the
trace splits into a prefix holding a terminal event of every item of
groups 0..k and no start of any later item, followed by the rest; the
processed counter never decreases along the trace and ends at the item
count; and a 5000 ms pause follows every group but the last. -/
theorem c6_theorem (results : List Bool) :
    (chunks3 results).flatten = results
    ∧ (∀ g ∈ chunks3 results, 0 < g.length ∧ g.length ≤ 3)
    ∧ (∀ g ∈ (chunks3 results).dropLast, g.length = 3)
    ∧ (results.length = 7 → (chunks3 results).map List.length = [3, 3, 1])
    ∧ (∀ k, k + 1 < (chunks3 results).length →
        ∃ pre post, schedule results = pre ++ post
          ∧ (∀ i, i < 3 * (k + 1) → ∃ b, Ev.finish i b ∈ pre)
          ∧ (∀ i, Ev.start i ∈ pre → i < 3 * (k + 1)))
    ∧ processedCount (schedule results) = results.length
    ∧ (∀ n, processedCount ((schedule results).take n)
        ≤ processedCount ((schedule results).take (n + 1)))
    ∧ (results ≠ [] → delayCount (schedule results) = (chunks3 results).length - 1)
    ∧ (∀ d, Ev.delay d ∈ schedule results → d = BATCH_DELAY_MS) := by
  refine ⟨chunks3_join results, chunks3_sizes results, chunks3_dropLast results,
    ?_, ?_, processedCount_schedule results, processedCount_take_mono (schedule results),
    ?_, fun d => delay_mem_scheduleAux (chunks3 results) 0 d⟩
  · intro h7
    match results with
    | [] => simp at h7
    | [a] => simp at h7
    | [a, b] => simp at h7
    | [a, b, c] => simp at h7
    | [a, b, c, d] => simp at h7
    | [a, b, c, d, e] => simp at h7
    | [a, b, c, d, e, f] => simp at h7
    | a :: b :: c :: d :: e :: f :: g :: rest =>
      have hr : rest = [] := by
        simp only [List.length_cons] at h7
        have : rest.length = 0 := by omega
        exact List.length_eq_zero.1 this
      subst hr
      rfl
  · intro k hk
    obtain ⟨pre, post, heq, hfin, hstart⟩ :=
      scheduleAux_order k (chunks3 results) 0 hk (chunks3_dropLast results)
    refine ⟨pre, post, heq, ?_, ?_⟩
    · intro i hi
      exact hfin i (Nat.zero_le i) (by omega)
    · intro i hi
      have := hstart i hi
      omega
  · intro hne
    exact delayCount_scheduleAux (chunks3 results) 0
      (by rw [Ne, chunks3_nil_iff]; exact hne)

/-- C7: a throw inside an item pipeline (here: the `fs` save helper
throwing on the first attempt with a non-rate-limit message) is absorbed
by the item-level catch and becomes a structured failed outcome; and no
matter what each item's environment does, every item of every group still
gets its start and terminal events in the batch trace. -/
theorem c7_theorem :
    (∀ (env : Env) (ctx : PipeCtx) (m : List Char),
        env.savePdfErr 0 = some m → containsSub rateLimitToken m = false →
        (processSinglePdf env ctx 0 0).result = ⟨false, some m⟩)
    ∧ (∀ (envs : Nat → Env) (ctx : PipeCtx) (N i : Nat), i < N →
        Ev.start i ∈ runBatch envs ctx N
          ∧ ∃ b, Ev.finish i b ∈ runBatch envs ctx N) := by
  constructor
  · intro env ctx m hm hc
    have hab : attemptBody env ctx 0 0 = ⟨[], [], [], 0, .error m⟩ := by
      unfold attemptBody
      rw [hm]
    show (processSinglePdfAux env ctx (3 + 1) 0 0).result = _
    rw [processSinglePdfAux, hab]
    dsimp only
    rw [hc]
    rfl
  · intro envs ctx N i hi
    unfold runBatch schedule
    apply scheduleAux_mem
    · exact Nat.zero_le i
    · rw [sumLens_chunks3]
      simpa using hi

/-- The C7 witness environment: `savePdf` rejects on every attempt with a
plain disk error. -/
def c7env : Env :=
  ⟨fun _ => .resolve [], fun _ => some "ENOSPC: no space left on device".data,
    fun _ => none⟩

/-- The message `c7env` throws. -/
def c7msg : List Char := "ENOSPC: no space left on device".data

/-- The C7 witness: the thrown save error surfaces as a structured failed
result of the item, not a propagated exception. -/
theorem c7_witness :
    c7env.savePdfErr 0 = some c7msg
    ∧ containsSub rateLimitToken c7msg = false
    ∧ (processSinglePdf c7env (ctxShipped [] []) 0 0).result = ⟨false, some c7msg⟩ :=
  ⟨rfl, by decide, c7_theorem.1 c7env (ctxShipped [] []) c7msg rfl (by decide)⟩

/-- The abstract entries of the C1 failing document: one line item whose
bill number is four digits, so the first extraction fails validation. -/
def c1entries : List (Option (List Char) × Option Jval) :=
  [(some "1234".data, some (.jstr "NF".data))]

/-- The C1 base prompt. -/
def c1bp : List Char := "Extract the invoice line items.".data

/-- The C1 filename. -/
def c1fn : List Char := "invoice.pdf".data

/-- C1: in the shipped file `createExtractionPrompt` is not defined, so
the validation-retry branch throws a `ReferenceError` that the parse
`catch` absorbs: every oracle call of every run carries the base prompt
(the enhanced prompt is never built), and a document whose first
extraction fails validation still produces exactly one oracle call — the
promised second call never happens. -/
theorem c1_theorem :
    (∀ (env : Env) (bp fn : List Char) (rc k : Nat),
        ((processSinglePdf env (ctxShipped bp fn) rc k).calls).all
          (fun p => p == bp) = true)
    ∧ (validateBillNumbers (mkDoc c1entries)).map VOutcome.valid = some false
    ∧ (processSinglePdf (noThrowEnv (fun _ => .resolve (strVal (mkDoc c1entries))))
        (ctxShipped c1bp c1fn) 0 0).calls = [c1bp] := by
  refine ⟨?_, by decide, by decide⟩
  intro env bp fn rc k
  rw [List.all_eq_true]
  intro p hp
  have := processSinglePdfAux_calls_shipped env bp fn
    (RETRY_ATTEMPTS + 1 - rc) rc k p hp
  simpa using this

/-- The message of the C5 rejected API call. -/
def c5msg : List Char :=
  "429 rate_limit_error: Number of request tokens has exceeded your per-minute rate limit".data

/-- The C5 base prompt. -/
def c5bp : List Char := "Extract the invoice line items.".data

/-- The C5 filename. -/
def c5fn : List Char := "invoice.pdf".data

/-- An environment whose `savePdf` helper rejects every attempt with the
rate-limit message: the only code path on which the backoff loop actually
runs. -/
def c5envRL : Env := ⟨fun _ => .resolve [], fun _ => some c5msg, fun _ => none⟩

/-- C5: `processPdfWithClaude` catches every API rejection and returns a
`success: false` result, so an oracle transport error — rate-limited or
not — never reaches the retry controller: with non-throwing disk helpers
no run ever sleeps, and a rejection whose message contains the rate-limit
substring fails the item immediately after one call with no backoff.  The
backoff loop is reachable only through a throwing disk helper, and there
it runs 10 s, 20 s and 40 s sleeps — four attempts in total, not three. -/
theorem c5_theorem :
    (∀ (api : Nat → ApiOutcome) (ctx : PipeCtx) (rc k : Nat),
        (processSinglePdf (noThrowEnv api) ctx rc k).sleeps = [])
    ∧ containsSub rateLimitToken c5msg = true
    ∧ processSinglePdf (noThrowEnv (fun _ => ApiOutcome.reject c5msg))
        (ctxShipped c5bp c5fn) 0 0
      = ⟨[c5bp], [], [], [], ⟨false, some c5msg⟩⟩
    ∧ (processSinglePdf c5envRL (ctxShipped c5bp c5fn) 0 0).sleeps = [10, 20, 40] := by
  exact ⟨fun api ctx rc k => (processSinglePdf_noThrow api ctx rc k).1,
    by decide, by decide, by decide⟩

/-- The C9 unparseable oracle response. -/
def c9garbage : List Char :=
  "I am sorry, I could not read this PDF document.".data

/-- The C9 base prompt. -/
def c9bp : List Char := "Extract the invoice line items.".data

/-- The C9 filename. -/
def c9fn : List Char := "invoice.pdf".data

/-- C9 counterexample: on an oracle response with no recoverable JSON the
item is not marked failed — the run returns `success: true` with a `null`
extracted payload persisted and no upload. -/
theorem c9_counterexample :
    inlineParse c9garbage = none
    ∧ processSinglePdf (noThrowEnv (fun _ => ApiOutcome.resolve c9garbage))
        (ctxShipped c9bp c9fn) 0 0
      = ⟨[c9bp], [], [⟨true, c9garbage, Jval.jnull⟩], [], ⟨true, none⟩⟩ := by
  exact ⟨by decide, by decide⟩

/-- C9 (amended): an unparseable oracle response is a per-item event that
never retries and never throws — exactly one call, no sleeps — but the
item is recorded as a success: the result is saved with a `null` extracted
payload, the upload is skipped, and the returned outcome is
`success: true`, not a failure. -/
theorem c9_theorem (api : Nat → ApiOutcome) (bp fn a : List Char)
    (hap : api 0 = ApiOutcome.resolve a) (hp : inlineParse a = none) :
    processSinglePdf (noThrowEnv api) (ctxShipped bp fn) 0 0
      = ⟨[bp], [], [⟨true, a, Jval.jnull⟩], [], ⟨true, none⟩⟩ := by
  have hpv : parseValidate (noThrowEnv api) (ctxShipped bp fn) 0 0 a
      = ⟨.jnull, [], 0⟩ := by
    unfold parseValidate
    rw [hp]
  have hab : attemptBody (noThrowEnv api) (ctxShipped bp fn) 0 0
      = ⟨[bp], [⟨true, a, Jval.jnull⟩], [], 1, .ok ⟨true, none⟩⟩ := by
    have hse : (noThrowEnv api).savePdfErr 0 = none := rfl
    have hapi : processPdfWithClaude ((noThrowEnv api).api 0)
        = ⟨true, a, []⟩ := by
      show processPdfWithClaude (api 0) = _
      rw [hap]
      rfl
    unfold attemptBody
    rw [hse]
    dsimp only
    rw [hapi]
    dsimp only
    rw [if_pos rfl, hpv]
    rfl
  show processSinglePdfAux (noThrowEnv api) (ctxShipped bp fn) (3 + 1) 0 0 = _
  rw [processSinglePdfAux, hab]

/-- The C9 witness: the amended statement at the concrete unparseable
response. -/
theorem c9_witness :
    (fun _ : Nat => ApiOutcome.resolve c9garbage) 0 = ApiOutcome.resolve c9garbage
    ∧ inlineParse c9garbage = none
    ∧ processSinglePdf (noThrowEnv (fun _ => ApiOutcome.resolve c9garbage))
        (ctxShipped c9bp c9fn) 0 0
      = ⟨[c9bp], [], [⟨true, c9garbage, Jval.jnull⟩], [], ⟨true, none⟩⟩ :=
  ⟨rfl, by decide, c9_theorem (fun _ => ApiOutcome.resolve c9garbage) c9bp c9fn
    c9garbage rfl (by decide)⟩

/-- The concrete object of the C3 counterexample. -/
def c3obj : Jobj :=
  .ocons "invoiceNumber".data (.jstr "12345678".data) .onil

/-- C3 counterexample: with the serialized object wrapped in a tagged
fence block and followed by the trailing-note suffix, both shipped parsers
return `null` instead of the object — `parseJSONFromResponse` because the
fence capture keeps the suffix and its parse failure escapes past the
brace stage, the inline parser of `processSinglePdf` both fenced and
unfenced. -/
theorem c3_counterexample :
    parseJSONFromResponse (fenceWrap (strVal (Jval.jobj c3obj) ++ sfxNote)) = none
    ∧ inlineParse (fenceWrap (strVal (Jval.jobj c3obj) ++ sfxNote)) = none
    ∧ inlineParse (strVal (Jval.jobj c3obj) ++ sfxNote) = none := by
  exact ⟨by decide, by decide, by decide⟩

/-- C3 (amended): for any JSON object whose serialization carries no
backtick, `parseJSONFromResponse` on the serialization followed by one of
the P1 suffixes returns the object in the three unfenced cases and in the
fenced empty-suffix case, but returns `null` (a parse failure) whenever a
non-empty suffix sits inside the fence: the claimed tolerance of trailing
prose holds only outside a fence, via the greedy first-brace-to-last-brace
stage, not via a matching-brace scan. -/
theorem c3_theorem (o : Jobj) (hb : btick ∉ strVal (.jobj o)) :
    (parseJSONFromResponse (strVal (.jobj o)) = some (.jobj o)
      ∧ parseJSONFromResponse (strVal (.jobj o) ++ sfxNote) = some (.jobj o)
      ∧ parseJSONFromResponse (strVal (.jobj o) ++ sfxBold) = some (.jobj o))
    ∧ (parseJSONFromResponse (fenceWrap (strVal (.jobj o))) = some (.jobj o)
      ∧ parseJSONFromResponse (fenceWrap (strVal (.jobj o) ++ sfxNote)) = none
      ∧ parseJSONFromResponse (fenceWrap (strVal (.jobj o) ++ sfxBold)) = none) := by
  obtain ⟨h1, h2, h3, h4, h5, h6⟩ := parseJSONFromResponse_cases o hb
  exact ⟨⟨h1, h2, h3⟩, h4, h5, h6⟩

/-- The C3 witness object. -/
def c3wobj : Jobj :=
  .ocons "vendor".data (.jstr "Marcone".data)
    (.ocons "total".data (.jnum 41250) .onil)

/-- The C3 witness: the amended statement at a concrete two-field
object. -/
theorem c3_witness :
    btick ∉ strVal (Jval.jobj c3wobj)
    ∧ ((parseJSONFromResponse (strVal (Jval.jobj c3wobj)) = some (Jval.jobj c3wobj)
      ∧ parseJSONFromResponse (strVal (Jval.jobj c3wobj) ++ sfxNote)
          = some (Jval.jobj c3wobj)
      ∧ parseJSONFromResponse (strVal (Jval.jobj c3wobj) ++ sfxBold)
          = some (Jval.jobj c3wobj))
    ∧ (parseJSONFromResponse (fenceWrap (strVal (Jval.jobj c3wobj)))
          = some (Jval.jobj c3wobj)
      ∧ parseJSONFromResponse (fenceWrap (strVal (Jval.jobj c3wobj) ++ sfxNote)) = none
      ∧ parseJSONFromResponse (fenceWrap (strVal (Jval.jobj c3wobj) ++ sfxBold))
          = none)) :=
  ⟨by decide, c3_theorem c3wobj (by decide)⟩

/-- The C4 witness entries: one valid 8-digit bill, one 4-digit bill, one
missing field. -/
def c4entries : List (Option (List Char) × Option Jval) :=
  [(some "12345678".data, some (.jstr "N1".data)),
    (some "1234".data, some (.jstr "NF".data)),
    (none, none)]

/-- The C4 witness: the validator outcome at a concrete three-entry
list. -/
theorem c4_witness :
    c4entries ≠ []
    ∧ ∃ out, validateBillNumbers (mkDoc c4entries) = some out
      ∧ (out.valid = true ↔ c4entries.all entryGood = true)
      ∧ out.invalidItems.map (fun it => it.index)
          = ((List.enumFrom 0 c4entries).filter (fun p => !entryGood p.2)).map
              (fun p => p.1)
      ∧ (out.valid = false →
          out.reason = "Invalid bill numbers found: ".data
            ++ joinSemi (((List.enumFrom 0 c4entries).filter
                (fun p => !entryGood p.2)).map
                (fun p => renderInvalid (mkInvalid p.1 p.2.2 (p.2.1.map .jstr)))))
      ∧ (out.valid = true → out.invalidItems = []) :=
  ⟨by decide, c4_theorem c4entries (by decide)⟩

/-- C2 (amended): when the first attempt parses to an object that fails
validation and the spec-modelled retry also parses to an object that fails
validation, the item is not dropped — one enhanced retry call happens, the
item is persisted and the run succeeds — but the persisted and uploaded
payload is the FIRST attempt's extraction, not the second's: the code
logs "Proceeding with original extraction" and keeps the original data
whenever the retry result fails validation. -/
theorem c2_theorem (api : Nat → ApiOutcome) (bp fn a1 a2 : List Char)
    (o1 o2 : Jobj) (r1 r2 : VOutcome)
    (hap0 : api 0 = .resolve a1) (hap1 : api 1 = .resolve a2)
    (hp1 : inlineParse a1 = some (.jobj o1))
    (hv1 : validateBillNumbers (.jobj o1) = some r1) (hr1 : r1.valid = false)
    (hp2 : inlineParse a2 = some (.jobj o2))
    (hv2 : validateBillNumbers (.jobj o2) = some r2) (hr2 : r2.valid = false) :
    processSinglePdf (noThrowEnv api) (ctxSpec bp fn) 0 0
      = ⟨[bp, retryPrompt r1.reason bp], [], [⟨true, a1, .jobj o1⟩], [.jobj o1],
        ⟨true, none⟩⟩ := by
  have hpv : parseValidate (noThrowEnv api) (ctxSpec bp fn) 0 0 a1
      = ⟨.jobj o1, [retryPrompt r1.reason bp], 1⟩ := by
    have hapi1 : processPdfWithClaude ((noThrowEnv api).api (0 + 1))
        = ⟨true, a2, []⟩ := by
      show processPdfWithClaude (api 1) = _
      rw [hap1]
      rfl
    unfold parseValidate
    rw [hp1]
    dsimp only
    rw [hv1]
    dsimp only
    rw [hr1, if_pos (by decide)]
    dsimp only [ctxSpec]
    rw [hapi1]
    dsimp only
    rw [if_pos rfl, hp2]
    dsimp only
    rw [hv2]
    dsimp only
    rw [hr2, if_neg (by decide)]
    rfl
  have hab : attemptBody (noThrowEnv api) (ctxSpec bp fn) 0 0
      = ⟨[bp, retryPrompt r1.reason bp], [⟨true, a1, .jobj o1⟩], [.jobj o1], 2,
        .ok ⟨true, none⟩⟩ := by
    have hse : (noThrowEnv api).savePdfErr 0 = none := rfl
    have hapi0 : processPdfWithClaude ((noThrowEnv api).api 0)
        = ⟨true, a1, []⟩ := by
      show processPdfWithClaude (api 0) = _
      rw [hap0]
      rfl
    unfold attemptBody
    rw [hse]
    dsimp only
    rw [hapi0]
    dsimp only
    rw [if_pos rfl, hpv]
    rfl
  show processSinglePdfAux (noThrowEnv api) (ctxSpec bp fn) (3 + 1) 0 0 = _
  rw [processSinglePdfAux, hab]

/-- The C2 first-attempt entries: a four-digit bill number. -/
def c2e1 : List (Option (List Char) × Option Jval) :=
  [(some "1234".data, some (.jstr "NF".data))]

/-- The C2 retry entries: a three-digit bill number, so the retry fails
validation too, and a payload different from the first attempt. -/
def c2e2 : List (Option (List Char) × Option Jval) :=
  [(some "567".data, none)]

/-- The first attempt's parsed object. -/
def c2o1 : Jobj :=
  .ocons lineItemsKey
    (.jarr (listToJarr (c2e1.map (fun e => .jobj (entryObj e.1 e.2))))) .onil

/-- The retry's parsed object. -/
def c2o2 : Jobj :=
  .ocons lineItemsKey
    (.jarr (listToJarr (c2e2.map (fun e => .jobj (entryObj e.1 e.2))))) .onil

/-- The first oracle response text. -/
def c2a1 : List Char := strVal (.jobj c2o1)

/-- The retry oracle response text. -/
def c2a2 : List Char := strVal (.jobj c2o2)

/-- The C2 oracle: first call returns the first document, every later call
the second. -/
def c2api : Nat → ApiOutcome :=
  fun k => if k = 0 then .resolve c2a1 else .resolve c2a2

/-- The C2 base prompt. -/
def c2bp : List Char := "Extract the invoice line items.".data

/-- The C2 filename. -/
def c2fn : List Char := "invoice.pdf".data

/-- The validator outcome of the first C2 document. -/
def c2r1 : VOutcome := (validateBillNumbers (.jobj c2o1)).getD ⟨true, [], []⟩

/-- The validator outcome of the C2 retry document. -/
def c2r2 : VOutcome := (validateBillNumbers (.jobj c2o2)).getD ⟨true, [], []⟩

/-- C2 counterexample: both attempts fail validation and differ; a second
attempt occurred (two oracle calls), yet the persisted record carries the
first attempt's payload — refuting "the data persisted is the second
attempt's extraction result". -/
theorem c2_counterexample :
    (processSinglePdf (noThrowEnv c2api) (ctxSpec c2bp c2fn) 0 0).saved
      = [⟨true, c2a1, .jobj c2o1⟩]
    ∧ (processSinglePdf (noThrowEnv c2api) (ctxSpec c2bp c2fn) 0 0).calls.length = 2
    ∧ c2r1.valid = false
    ∧ c2r2.valid = false
    ∧ Jval.jobj c2o1 ≠ Jval.jobj c2o2 := by
  exact ⟨by decide, by decide, by decide, by decide, by decide⟩

/-- The C2 witness: the amended statement at the concrete pair of
documents. -/
theorem c2_witness :
    c2api 0 = ApiOutcome.resolve c2a1
    ∧ inlineParse c2a1 = some (Jval.jobj c2o1)
    ∧ validateBillNumbers (Jval.jobj c2o1) = some c2r1
    ∧ c2r1.valid = false
    ∧ processSinglePdf (noThrowEnv c2api) (ctxSpec c2bp c2fn) 0 0
      = ⟨[c2bp, retryPrompt c2r1.reason c2bp], [], [⟨true, c2a1, Jval.jobj c2o1⟩],
        [Jval.jobj c2o1], ⟨true, none⟩⟩ :=
  ⟨rfl, by decide, by decide, by decide,
    c2_theorem c2api c2bp c2fn c2a1 c2a2 c2o1 c2o2 c2r1 c2r2 rfl rfl
      (by decide) (by decide) (by decide) (by decide) (by decide) (by decide)⟩

end EPP
